import Mathlib

/-!
Verification of the vibing-os in-browser bundler and module loader.

The definitions below are shallow embeddings of the TypeScript sources:
`app/lib/module-compiler.ts` (path resolution, export fallback, cache
invalidation), `app/lib/module-registry.ts` (host module registry),
`app/lib/external-handler.ts` (external library loader), and the
`WebpackLikeCompiler` in `app/lib/webpack-compiler.tsx` (dependency walker,
build cache, hot reload, and the emitted runtime registry).  Asynchronous
methods are embedded as big-step functions with explicit state passing and
fuel; JavaScript `Map`s become association lists.
-/

/-- Association list lookup, mirroring `Map.get` (first match wins). -/
def alookup {α : Type} (k : String) : List (String × α) → Option α
  | [] => none
  | (a, b) :: t => if a = k then some b else alookup k t

/-- Keys of an association list, in insertion order (`Map.keys`). -/
def akeys {α : Type} (l : List (String × α)) : List String := l.map Prod.fst

/-- `Map.set`: replace the value in place when the key exists, else append. -/
def aset {α : Type} (k : String) (v : α) : List (String × α) → List (String × α)
  | [] => [(k, v)]
  | (a, b) :: t => if a = k then (k, v) :: t else (a, b) :: aset k v t

/-- `Map.delete`: drop the entry with the given key. -/
def adel {α : Type} (k : String) (l : List (String × α)) : List (String × α) :=
  l.filter (fun e => e.1 != k)

theorem alookup_append {α : Type} (k : String) (l1 l2 : List (String × α)) :
    alookup k (l1 ++ l2) = ((alookup k l1).rec (alookup k l2) (fun v => some v)) := by
  induction l1 with
  | nil => rfl
  | cons e t ih =>
    obtain ⟨a, b⟩ := e
    by_cases h : a = k <;> simp [alookup, h, ih]

theorem alookup_append_of_none {α : Type} {k : String} {l1 : List (String × α)}
    (l2 : List (String × α)) (h : alookup k l1 = none) :
    alookup k (l1 ++ l2) = alookup k l2 := by
  rw [alookup_append, h]

theorem alookup_append_of_some {α : Type} {k : String} {l1 : List (String × α)} {v : α}
    (l2 : List (String × α)) (h : alookup k l1 = some v) :
    alookup k (l1 ++ l2) = some v := by
  rw [alookup_append, h]

theorem alookup_eq_none_iff {α : Type} {k : String} {l : List (String × α)} :
    alookup k l = none ↔ k ∉ akeys l := by
  induction l with
  | nil => simp [alookup, akeys]
  | cons e t ih =>
    obtain ⟨a, b⟩ := e
    by_cases h : a = k
    · simp [alookup, akeys, h, ih]
    · simp [alookup, akeys, h, ih]
      tauto

theorem mem_of_alookup_eq_some {α : Type} {k : String} {l : List (String × α)} {v : α}
    (h : alookup k l = some v) : (k, v) ∈ l := by
  induction l with
  | nil => simp [alookup] at h
  | cons e t ih =>
    obtain ⟨a, b⟩ := e
    by_cases ha : a = k
    · subst ha
      simp [alookup] at h
      simp [h]
    · simp [alookup, ha] at h
      exact List.mem_cons_of_mem _ (ih h)

theorem mem_akeys_of_alookup_eq_some {α : Type} {k : String} {l : List (String × α)} {v : α}
    (h : alookup k l = some v) : k ∈ akeys l := by
  have := mem_of_alookup_eq_some h
  exact List.mem_map.mpr ⟨(k, v), this, rfl⟩

theorem alookup_isSome_of_mem_akeys {α : Type} {k : String} {l : List (String × α)}
    (h : k ∈ akeys l) : (alookup k l).isSome := by
  cases hl : alookup k l with
  | some v => rfl
  | none => exact absurd h (alookup_eq_none_iff.mp hl)

theorem alookup_of_mem_of_nodup {α : Type} {k : String} {v : α} {l : List (String × α)}
    (hm : (k, v) ∈ l) (hn : (akeys l).Nodup) : alookup k l = some v := by
  induction l with
  | nil => simp at hm
  | cons e t ih =>
    obtain ⟨a, b⟩ := e
    simp only [akeys, List.map_cons, List.nodup_cons] at hn
    rcases List.mem_cons.mp hm with h | h
    · injection h with h1 h2
      subst h1
      subst h2
      simp [alookup]
    · have hak : a ≠ k := by
        intro rfl'
        exact hn.1 (List.mem_map.mpr ⟨(a, v), by simpa [rfl'] using h, by simp [rfl']⟩)
      simp [alookup, hak]
      exact ih h hn.2

theorem mem_adel_iff {α : Type} {k : String} {l : List (String × α)} {e : String × α} :
    e ∈ adel k l ↔ e ∈ l ∧ e.1 ≠ k := by
  simp [adel, List.mem_filter]

theorem alookup_adel_self {α : Type} (k : String) (l : List (String × α)) :
    alookup k (adel k l) = none := by
  rw [alookup_eq_none_iff]
  intro h
  obtain ⟨e, he, hek⟩ := List.mem_map.mp h
  exact (mem_adel_iff.mp he).2 hek

theorem alookup_adel_ne {α : Type} {k k' : String} (l : List (String × α)) (h : k' ≠ k) :
    alookup k' (adel k l) = alookup k' l := by
  induction l with
  | nil => rfl
  | cons e t ih =>
    obtain ⟨a, b⟩ := e
    by_cases hak : a = k
    · subst hak
      have : ¬ a = k' := fun hc => h (hc ▸ rfl)
      simp [adel, alookup, this, ih]
      exact ih
    · by_cases hak' : a = k'
      · subst hak'
        simp [adel, alookup, hak]
      · simp [adel, alookup, hak, hak', ih]
        exact ih

theorem adel_sublist {α : Type} (k : String) (l : List (String × α)) :
    (adel k l).Sublist l := List.filter_sublist l

/-! ## Path resolution (`ModuleCompiler.resolvePath` / `resolveFileWithExtension`)

String primitives are re-implemented over `List Char` so that all definitions
reduce inside the kernel; they have the exact semantics of the JavaScript
operations used by the source (`startsWith`, `split('/')`, `join`). -/

/-- `s.startsWith(pre)`. -/
def strStartsWith (s pre : String) : Bool := pre.data.isPrefixOf s.data

/-- Split a character list at every occurrence of `c` (JavaScript `split`). -/
def splitOnChar (c : Char) : List Char → List (List Char)
  | [] => [[]]
  | x :: xs =>
    let r := splitOnChar c xs
    if x = c then [] :: r
    else (x :: r.headD []) :: r.tail

/-- `s.split('/')`. -/
def strSplitSlash (s : String) : List String :=
  (splitOnChar '/' s.data).map (fun l => ⟨l⟩)

/-- `parts.join('/')`. -/
def joinSlash (l : List String) : String :=
  ⟨List.intercalate ['/'] (l.map String.data)⟩

/-- `currentFile.substring(0, currentFile.lastIndexOf('/'))`: the characters
strictly before the last `/` (empty when there is no `/`). -/
def dirname (s : String) : String :=
  ⟨(((s.data.reverse).dropWhile (fun c => c ≠ '/')).drop 1).reverse⟩

/-- Shallow embedding of `ModuleCompiler.resolvePath` (module-compiler.ts):
a leading `./` is stripped and replaced by the importing directory; a leading
run of `..` segments pops that many trailing components of the importing
directory; any other specifier is returned unchanged. -/
def resolvePath (relativePath currentFile : String) : String :=
  let currentDir := dirname currentFile
  if strStartsWith relativePath "./" then
    currentDir ++ ⟨relativePath.data.drop 1⟩
  else if strStartsWith relativePath "../" then
    let parts := (strSplitSlash currentDir).filter (fun p => p != "")
    let relativeParts := (strSplitSlash relativePath).filter (fun p => p != "")
    let upCount := (relativeParts.takeWhile (fun p => p == "..")).length
    let resolvedParts :=
      (parts.take (parts.length - upCount)) ++ relativeParts.drop upCount
    "/" ++ joinSlash resolvedParts
  else relativePath

/-- Follows the spec's words, for comparison with `resolvePath`: canonicalize
the relative specifier against the importing module's directory with standard
`..`/`.` collapse. -/
def specCanonicalize (relativePath currentFile : String) : String :=
  let base := (strSplitSlash (dirname currentFile)).filter (fun p => p != "")
  let segs := (strSplitSlash relativePath).filter (fun p => p != "")
  let stack := segs.foldl
    (fun acc seg =>
      if seg = "." then acc
      else if seg = ".." then acc.dropLast
      else acc ++ [seg]) base
  "/" ++ joinSlash stack

/-- The file-extension probe order of `resolveFileWithExtension`. -/
def extensionList : List String := [".tsx", ".ts", ".jsx", ".js", ".css"]

/-- The index-file probe order of `resolveFileWithExtension`. -/
def indexExtensionList : List String := ["/index.tsx", "/index.ts", "/index.jsx", "/index.js"]

/-- Shallow embedding of `ModuleCompiler.resolveFileWithExtension`: the
filesystem is abstracted as its `exists` predicate `fs`. -/
def resolveFileWithExtension (fs : String → Bool) (filePath : String) : Option String :=
  if fs filePath then some filePath
  else
    match (extensionList.map (fun e => filePath ++ e)).find? fs with
    | some p => some p
    | none => (indexExtensionList.map (fun e => filePath ++ e)).find? fs

/-- The full candidate order actually probed: the bare path, then the five
file extensions, then the four index files. -/
def resolutionCandidates (p : String) : List String :=
  p :: ((extensionList.map (fun e => p ++ e)) ++ (indexExtensionList.map (fun e => p ++ e)))

theorem string_append_left_cancel {a b c : String} (h : a ++ b = a ++ c) : b = c := by
  apply String.ext
  have hd : a.data ++ b.data = a.data ++ c.data := by
    have hb := congrArg String.data h
    simpa [String.data_append] using hb
  exact List.append_cancel_left hd

theorem string_ne_append_of_ne_empty {a b : String} (h : b ≠ "") : a ≠ a ++ b := by
  intro hc
  apply h
  have : a ++ "" = a ++ b := by simpa using hc
  exact (string_append_left_cancel this).symm

theorem resolveFileWithExtension_eq_find (fs : String → Bool) (p : String) :
    resolveFileWithExtension fs p = (resolutionCandidates p).find? fs := by
  unfold resolveFileWithExtension resolutionCandidates
  cases hp : fs p with
  | true => simp [List.find?_cons, hp]
  | false =>
    simp only [List.find?_cons, hp, if_neg]
    rw [List.find?_append]
    cases hext : (extensionList.map (fun e => p ++ e)).find? fs <;>
      simp [hext, Option.orElse]

/-- C3 counterexample: the code does not perform standard `..`/`.` collapse.
For the specifier `./a/../b` imported from `/src/main.tsx`, the code
canonicalizes to `/src/a/../b` while the claimed standard collapse gives
`/src/b`; on a filesystem containing exactly `/src/b.tsx`, the claimed
procedure resolves the import while the code fails to resolve it. -/
theorem c3_counterexample :
    resolvePath "./a/../b" "/src/main.tsx" = "/src/a/../b" ∧
    specCanonicalize "./a/../b" "/src/main.tsx" = "/src/b" ∧
    resolvePath "./a/../b" "/src/main.tsx" ≠ specCanonicalize "./a/../b" "/src/main.tsx" ∧
    resolveFileWithExtension (fun s => s == "/src/b.tsx")
      (resolvePath "./a/../b" "/src/main.tsx") = none ∧
    resolveFileWithExtension (fun s => s == "/src/b.tsx")
      (specCanonicalize "./a/../b" "/src/main.tsx") = some "/src/b.tsx" :=
  ⟨rfl, rfl, by decide, rfl, rfl⟩

/-- C3 (amended): canonicalization strips a leading `./` or consumes only the
leading `..` segments against the importing directory (interior `.` and `..`
segments are not collapsed); the canonicalized path is then probed itself
first, then with extensions `.tsx, .ts, .jsx, .js, .css`, then as
`/index.{tsx,ts,jsx,js}`, and the first existing candidate wins; in
particular an index-file result is produced only when neither the bare path
nor any file-extension candidate exists. -/
theorem c3_amended :
    (∀ (fs : String → Bool) (p : String),
        resolveFileWithExtension fs p = (resolutionCandidates p).find? fs) ∧
    (∀ (fs : String → Bool) (p r : String),
        resolveFileWithExtension fs p = some r →
        r ∈ indexExtensionList.map (fun e => p ++ e) →
        fs p = false ∧ ∀ e ∈ extensionList.map (fun x => p ++ x), fs e = false) := by
  constructor
  · exact resolveFileWithExtension_eq_find
  · intro fs p r hres hidx
    obtain ⟨e1, he1, hpe1⟩ := List.mem_map.mp hidx
    simp only [indexExtensionList, List.mem_cons, List.not_mem_nil, or_false] at he1
    have he1ne : e1 ≠ "" := by
      rcases he1 with rfl | rfl | rfl | rfl <;> decide
    unfold resolveFileWithExtension at hres
    cases hp : fs p with
    | true =>
      rw [hp, if_pos rfl] at hres
      have hrp : p = r := by injection hres
      exact absurd (hrp.trans hpe1.symm) (string_ne_append_of_ne_empty he1ne)
    | false =>
      rw [hp] at hres
      simp only [Bool.false_eq_true, if_neg] at hres
      refine ⟨rfl, ?_⟩
      cases hext : (extensionList.map (fun e => p ++ e)).find? fs with
      | some q =>
        rw [hext] at hres
        have hrq : q = r := by injection hres
        obtain ⟨e2, he2, hpe2⟩ := List.mem_map.mp (List.mem_of_find?_eq_some hext)
        have he12 : e2 = e1 := string_append_left_cancel ((hpe2.trans hrq).trans hpe1.symm)
        subst he12
        rcases he1 with rfl | rfl | rfl | rfl <;> exact absurd he2 (by decide)
      | none =>
        intro e he
        have := List.find?_eq_none.mp hext e he
        simpa using this

/-- Witness for C3 (amended), at a directory specifier whose only match is
`/d/index.ts`. -/
theorem c3_amended_witness :
    resolveFileWithExtension (fun s => s == "/d/index.ts") "/d"
        = (resolutionCandidates "/d").find? (fun s => s == "/d/index.ts") ∧
    ((fun s => s == "/d/index.ts") "/d" = false ∧
      ∀ e ∈ extensionList.map (fun x => "/d" ++ x), (fun s => s == "/d/index.ts") e = false) :=
  ⟨c3_amended.1 _ "/d",
    c3_amended.2 (fun s => s == "/d/index.ts") "/d" "/d/index.ts" (by rfl) (by decide)⟩

/-! ## Default-export fallback (`ModuleCompiler.generateExportStatements`) -/

/-- JavaScript `\w` (ASCII word character). -/
def isWordChar (c : Char) : Bool := c.isAlphanum || c = '_'

/-- JavaScript `\s` (ASCII whitespace as used by the sources). -/
def isSpaceChar (c : Char) : Bool :=
  c = ' ' || c = '\t' || c = '\n' || c = '\r' || c = '\x0b' || c = '\x0c'

/-- Match `kw` followed by one-or-more whitespace characters and a maximal
word at the head of `l`; with `requireEq`, additionally demand `\s*=` after
the word.  This is the anchored semantics of the regexes
`function\s+(\w+)`, `class\s+(\w+)` and `const\s+(\w+)\s*=`. -/
def matchKwHere (kw : List Char) (requireEq : Bool) (l : List Char) : Option String :=
  if kw.isPrefixOf l then
    let rest := l.drop kw.length
    let ws := rest.takeWhile isSpaceChar
    if ws.length = 0 then none
    else
      let rest2 := rest.drop ws.length
      let name := rest2.takeWhile isWordChar
      if name.length = 0 then none
      else if requireEq then
        match (rest2.drop name.length).dropWhile isSpaceChar with
        | '=' :: _ => some ⟨name⟩
        | _ => none
      else some ⟨name⟩
  else none

/-- Leftmost match of the pattern in the code (JavaScript `String.match`). -/
def firstKwMatch (kw : List Char) (requireEq : Bool) : List Char → Option String
  | [] => none
  | c :: t =>
    match matchKwHere kw requireEq (c :: t) with
    | some n => some n
    | none => firstKwMatch kw requireEq t

/-- `code.match(/function\s+(\w+)/)` capture group. -/
def funcMatch (code : String) : Option String :=
  firstKwMatch "function".data false code.data

/-- `code.match(/class\s+(\w+)/)` capture group. -/
def classMatch (code : String) : Option String :=
  firstKwMatch "class".data false code.data

/-- `code.match(/const\s+(\w+)\s*=/)` capture group. -/
def constMatch (code : String) : Option String :=
  firstKwMatch "const".data true code.data

/-- The fallback name `funcMatch?.[1] || classMatch?.[1] || constMatch?.[1]`
(captures are nonempty, so JavaScript falsiness is `Option.orElse`). -/
def fallbackExportName (code : String) : Option String :=
  (funcMatch code).orElse fun _ => (classMatch code).orElse fun _ => constMatch code

/-- Shallow embedding of `ModuleCompiler.generateExportStatements`; `exps`
lists the recognized exports as `(name, isDefault)` pairs and `code` is the
processed module body the regexes run over. -/
def generateExportStatements (exps : List (String × Bool)) (code : String) : String :=
  if exps.isEmpty then
    match fallbackExportName code with
    | some exportName => "  module.exports = \x7b default: " ++ exportName ++ " \x7d;"
    | none => "  module.exports = \x7b\x7d;"
  else
    let exportObj := exps.map fun e =>
      if e.2 then "default: " ++ ((fallbackExportName code).getD "App")
      else e.1 ++ ": " ++ e.1
    "  module.exports = \x7b " ++ String.intercalate ", " exportObj ++ " \x7d;"

/-- C9 counterexample: for the export-free module body
`const A = 1;\nfunction B() {}` the code emits `B` as the default export
(kind precedence puts `function` matches first), not the textually first
top-level declaration `const A`. -/
theorem c9_counterexample :
    generateExportStatements [] "const A = 1;\nfunction B() \x7b\x7d"
        = "  module.exports = \x7b default: B \x7d;" ∧
    "  module.exports = \x7b default: B \x7d;" ≠ "  module.exports = \x7b default: A \x7d;" :=
  ⟨rfl, by decide⟩

/-- C9 (amended): with no recognized exports, the compiled module picks its
default export by kind precedence — the first `function\s+(\w+)` match
anywhere in the code (not necessarily top level), else the first class match,
else the first const match — and exports the empty object when none of the
three patterns matches. -/
theorem c9_amended :
    (∀ code : String, funcMatch code = none → classMatch code = none →
        constMatch code = none →
        generateExportStatements [] code = "  module.exports = \x7b\x7d;") ∧
    (∀ (code : String) (n : String), funcMatch code = some n →
        generateExportStatements [] code
          = "  module.exports = \x7b default: " ++ n ++ " \x7d;") ∧
    (∀ (code : String) (n : String), funcMatch code = none → classMatch code = some n →
        generateExportStatements [] code
          = "  module.exports = \x7b default: " ++ n ++ " \x7d;") ∧
    (∀ (code : String) (n : String), funcMatch code = none → classMatch code = none →
        constMatch code = some n →
        generateExportStatements [] code
          = "  module.exports = \x7b default: " ++ n ++ " \x7d;") := by
  refine ⟨?_, ?_, ?_, ?_⟩
  · intro code h1 h2 h3
    simp [generateExportStatements, fallbackExportName, h1, h2, h3, Option.orElse]
  · intro code n h1
    simp [generateExportStatements, fallbackExportName, h1, Option.orElse]
  · intro code n h1 h2
    simp [generateExportStatements, fallbackExportName, h1, h2, Option.orElse]
  · intro code n h1 h2 h3
    simp [generateExportStatements, fallbackExportName, h1, h2, h3, Option.orElse]

/-- Witness for C9 (amended) on concrete codes for all four branches. -/
theorem c9_amended_witness :
    generateExportStatements [] "let x = 1;" = "  module.exports = \x7b\x7d;" ∧
    generateExportStatements [] "function F() \x7b\x7d"
      = "  module.exports = \x7b default: F \x7d;" ∧
    generateExportStatements [] "class C \x7b\x7d"
      = "  module.exports = \x7b default: C \x7d;" ∧
    generateExportStatements [] "const K = 3;"
      = "  module.exports = \x7b default: K \x7d;" :=
  ⟨c9_amended.1 "let x = 1;" rfl rfl rfl,
   c9_amended.2.1 "function F() \x7b\x7d" "F" rfl,
   c9_amended.2.2.1 "class C \x7b\x7d" "C" rfl rfl,
   c9_amended.2.2.2 "const K = 3;" "K" rfl rfl rfl⟩

/-! ## Module definition (`ModuleRegistry.define` and the emitted `window.define`)

Factories are represented by opaque numeric tags: `define` never runs a
factory, so only its identity matters here. -/

/-- Registry entry of the host `ModuleRegistry` (module-registry.ts). -/
structure MRDefEntry where
  dependencies : List String
  factory : Nat
  loaded : Bool
  loading : Bool
deriving DecidableEq, Repr

/-- Host `ModuleRegistry` state: the `modules` map and a count of emitted
`console.warn` calls. -/
structure MRState where
  modules : List (String × MRDefEntry)
  warnings : Nat
deriving DecidableEq, Repr

/-- Shallow embedding of `ModuleRegistry.define`: a registered-and-loaded id
is left untouched with a warning; otherwise the entry is (re)set with
`loaded := false, loading := false`. -/
def mrDefine (st : MRState) (id : String) (dependencies : List String) (factory : Nat) :
    MRState :=
  match alookup id st.modules with
  | some e =>
    if e.loaded then { st with warnings := st.warnings + 1 }
    else { st with modules := aset id ⟨dependencies, factory, false, false⟩ st.modules }
  | none => { st with modules := aset id ⟨dependencies, factory, false, false⟩ st.modules }

/-- State of the emitted runtime's `define` (the `modules` map of the bundle
stub in `getModuleRegistryCode`), with a warning counter. -/
structure EDefState where
  modules : List (String × (List String × Nat))
  warnings : Nat
deriving DecidableEq, Repr

/-- Shallow embedding of the emitted `window.define`: any already-present id
— loaded or not — is a warning-only no-op; new ids are appended. -/
def emittedDefine (st : EDefState) (id : String) (dependencies : List String)
    (factory : Nat) : EDefState :=
  if (alookup id st.modules).isSome then { st with warnings := st.warnings + 1 }
  else { st with modules := st.modules ++ [(id, (dependencies, factory))] }

/-- C5 counterexample: in the emitted runtime, redefining an id that is
defined but not yet loaded does not replace the entry.  After
`define('a', [], f1); define('a', ['x'], f2)` the registry still holds the
first entry (and recorded a warning) although `a` was never loaded. -/
theorem c5_counterexample :
    alookup "a" (emittedDefine (emittedDefine ⟨[], 0⟩ "a" [] 1) "a" ["x"] 2).modules
        = some ([], 1) ∧
    some (([] : List String), 1) ≠ some (["x"], 2) ∧
    (emittedDefine (emittedDefine ⟨[], 0⟩ "a" [] 1) "a" ["x"] 2).warnings = 1 :=
  ⟨rfl, by decide, rfl⟩

/-- C5 (amended): in the host `ModuleRegistry`, `define` on a loaded id is a
warning-only no-op and `define` on a defined-but-not-loaded id replaces the
entry; in the emitted runtime registry, `define` on any already-defined id —
loaded or not — is a warning-only no-op and never replaces. -/
theorem c5_amended :
    (∀ (st : MRState) (id : String) (d : List String) (f : Nat) (e : MRDefEntry),
        alookup id st.modules = some e → e.loaded = true →
        mrDefine st id d f = { st with warnings := st.warnings + 1 }) ∧
    (∀ (st : MRState) (id : String) (d : List String) (f : Nat) (e : MRDefEntry),
        alookup id st.modules = some e → e.loaded = false →
        alookup id (mrDefine st id d f).modules = some ⟨d, f, false, false⟩ ∧
        (mrDefine st id d f).warnings = st.warnings) ∧
    (∀ (st : EDefState) (id : String) (d : List String) (f : Nat),
        (alookup id st.modules).isSome →
        emittedDefine st id d f = { st with warnings := st.warnings + 1 }) := by
  refine ⟨?_, ?_, ?_⟩
  · intro st id d f e he hl
    simp [mrDefine, he, hl]
  · intro st id d f e he hl
    have hset : ∀ l : List (String × MRDefEntry),
        alookup id (aset id ⟨d, f, false, false⟩ l) = some ⟨d, f, false, false⟩ := by
      intro l
      induction l with
      | nil => simp [aset, alookup]
      | cons x t ih =>
        obtain ⟨a, b⟩ := x
        by_cases hak : a = id
        · subst hak
          simp [aset, alookup]
        · simp [aset, alookup, hak, ih]
    constructor
    · simp [mrDefine, he, hl, hset]
    · simp [mrDefine, he, hl]
  · intro st id d f h
    simp [emittedDefine, h]

/-- Witness for C5 (amended) at concrete registry states. -/
theorem c5_amended_witness :
    mrDefine ⟨[("a", ⟨[], 1, true, false⟩)], 0⟩ "a" ["x"] 2
        = { modules := [("a", ⟨[], 1, true, false⟩)], warnings := 1 } ∧
    (alookup "a" (mrDefine ⟨[("a", ⟨[], 1, false, false⟩)], 0⟩ "a" ["x"] 2).modules
        = some ⟨["x"], 2, false, false⟩ ∧
      (mrDefine ⟨[("a", ⟨[], 1, false, false⟩)], 0⟩ "a" ["x"] 2).warnings = 0) ∧
    emittedDefine ⟨[("a", ([], 1))], 0⟩ "a" ["x"] 2
        = { modules := [("a", ([], 1))], warnings := 1 } :=
  ⟨c5_amended.1 ⟨[("a", ⟨[], 1, true, false⟩)], 0⟩ "a" ["x"] 2 ⟨[], 1, true, false⟩ rfl rfl,
   c5_amended.2.1 ⟨[("a", ⟨[], 1, false, false⟩)], 0⟩ "a" ["x"] 2 ⟨[], 1, false, false⟩ rfl rfl,
   c5_amended.2.2 ⟨[("a", ([], 1))], 0⟩ "a" ["x"] 2 (by decide)⟩

/-! ## Build memoization (`WebpackLikeCompiler.build` cache keying) -/

/-- JSON-serializable option values occurring in `CompilerOptions`. -/
inductive OptVal : Type
  | str (v : String)
  | boolean (v : Bool)
  | strs (v : List String)
deriving DecidableEq, Repr

/-- JSON rendering of a single option value. -/
def jsonOfVal : OptVal → String
  | .str v => "\"" ++ v ++ "\""
  | .boolean true => "true"
  | .boolean false => "false"
  | .strs vs => "[" ++ String.intercalate "," (vs.map (fun v => "\"" ++ v ++ "\"")) ++ "]"

/-- `JSON.stringify(options)`: an options object is a property list in
insertion order, and the key is order- and presence-sensitive. -/
def jsonStringify (opts : List (String × OptVal)) : String :=
  "\x7b" ++
    String.intercalate ","
      (opts.map (fun p => "\"" ++ p.1 ++ "\":" ++ jsonOfVal p.2)) ++
  "\x7d"

/-- The build cache of `WebpackLikeCompiler`: build results are identified by
the numeric tag `counter` assigned when they are created, standing for the
object reference. -/
structure BuildCacheState where
  cache : List (String × Nat)
  counter : Nat
deriving DecidableEq, Repr

/-- Shallow embedding of the caching skeleton of `WebpackLikeCompiler.build`:
look up `JSON.stringify(options)`; on a hit return the cached result
reference, otherwise produce a fresh result and cache it. -/
def buildStep (st : BuildCacheState) (opts : List (String × OptVal)) :
    Nat × BuildCacheState :=
  let cacheKey := jsonStringify opts
  match alookup cacheKey st.cache with
  | some t => (t, st)
  | none => (st.counter, ⟨st.cache ++ [(cacheKey, st.counter)], st.counter + 1⟩)

/-- C7 counterexample: two extensionally equal option objects (the same
key/value pairs, listed in different orders) produce different
`JSON.stringify` cache keys, and re-running `build` with the permuted options
returns a different build-result reference. -/
theorem c7_counterexample :
    [("entryPoint", OptVal.str "/a.tsx"), ("includeTailwind", OptVal.boolean true)].Perm
        [("includeTailwind", OptVal.boolean true), ("entryPoint", OptVal.str "/a.tsx")] ∧
    jsonStringify [("entryPoint", OptVal.str "/a.tsx"), ("includeTailwind", OptVal.boolean true)]
        ≠ jsonStringify
            [("includeTailwind", OptVal.boolean true), ("entryPoint", OptVal.str "/a.tsx")] ∧
    (buildStep
        (buildStep ⟨[], 0⟩
          [("entryPoint", OptVal.str "/a.tsx"), ("includeTailwind", OptVal.boolean true)]).2
        [("includeTailwind", OptVal.boolean true), ("entryPoint", OptVal.str "/a.tsx")]).1
      ≠ (buildStep ⟨[], 0⟩
          [("entryPoint", OptVal.str "/a.tsx"), ("includeTailwind", OptVal.boolean true)]).1 := by
  refine ⟨by decide, by decide, by decide⟩

/-- C7 (amended): the cache key is `JSON.stringify` of the options object as
written, so it is order- and presence-sensitive rather than canonical; any
two option objects with the same serialization — in particular the same
object repeated — hit the cache and return the same build-result reference. -/
theorem c7_amended :
    ∀ (st : BuildCacheState) (opts1 opts2 : List (String × OptVal)),
      jsonStringify opts1 = jsonStringify opts2 →
      (buildStep (buildStep st opts1).2 opts2).1 = (buildStep st opts1).1 := by
  intro st opts1 opts2 hkey
  unfold buildStep
  rw [← hkey]
  cases h1 : alookup (jsonStringify opts1) st.cache with
  | some t => simp [h1]
  | none =>
    simp only [h1]
    rw [alookup_append_of_none _ h1]
    simp [alookup]

/-- Witness for C7 (amended): re-running `build` with the identical options
object returns the original cached reference. -/
theorem c7_amended_witness :
    (buildStep (buildStep ⟨[], 0⟩ [("entryPoint", OptVal.str "/a.tsx")]).2
        [("entryPoint", OptVal.str "/a.tsx")]).1
      = (buildStep ⟨[], 0⟩ [("entryPoint", OptVal.str "/a.tsx")]).1 :=
  c7_amended ⟨[], 0⟩ [("entryPoint", OptVal.str "/a.tsx")] [("entryPoint", OptVal.str "/a.tsx")] rfl

/-! ## External library loading (`ExternalHandler`) -/

/-- `ExternalLibraryConfig`: at most one global name, one URL, dependencies. -/
structure ExtConfig where
  globalName : Option String
  url : Option String
  deps : List String
deriving DecidableEq, Repr

/-- Environment of the external handler: CDN imports and the two Next.js
React imports; `none` models a rejected dynamic import. -/
structure ExtEnv where
  fetchUrl : String → Option Nat
  reactImport : Option Nat
  reactDomImport : Option Nat
  reactDomFallback : Option Nat

/-- `ExternalHandler` state: the registry, the loaded-name set, the pending
set, and the host globals (`window`, merged with the parent realm). -/
structure ExtState where
  externals : List (String × ExtConfig)
  loadedLibraries : List String
  pending : List String
  win : List (String × Nat)
deriving DecidableEq, Repr

/-- Errors raised by `loadExternal`. -/
inductive ExtErr : Type
  | notRegistered (name : String)
  | urlFailed (name url : String)
  | noLoadMethod (name : String)
deriving DecidableEq, Repr

/-- Result of a big-step load: a settled value (`none` is JavaScript `null`),
a settled rejection, a hit on an in-flight promise, or fuel exhaustion. -/
inductive ExtLoadRes : Type
  | ok (v : Option Nat) (st : ExtState)
  | err (e : ExtErr) (st : ExtState)
  | sharedPending (st : ExtState)
  | fuelOut
deriving DecidableEq, Repr

/-- `getFromGlobal` then the `getLibraryExports` wrapper: a loaded name
yields the current value of its configured global, and `null` when the record
has no global. -/
def getLibraryExports (st : ExtState) (name : String) : Option Nat :=
  match alookup name st.externals with
  | none => none
  | some cfg =>
    match cfg.globalName with
    | some g => alookup g st.win
    | none => none

/-- The URL branch of `doLoadExternal`: dynamic-import the URL, publish to
the configured global when present, else fail with `NoLoadMethod`. -/
def loadFromUrl (env : ExtEnv) (st : ExtState) (name : String) (cfg : ExtConfig) :
    ExtLoadRes :=
  match cfg.url with
  | some u =>
    match env.fetchUrl u with
    | some e =>
      match cfg.globalName with
      | some g => .ok (some e) { st with win := aset g e st.win }
      | none => .ok (some e) st
    | none => .err (.urlFailed name u) st
  | none => .err (.noLoadMethod name) st

/-- The global-then-URL tail of `doLoadExternal` for non-React names. -/
def loadFromGlobalOrUrl (env : ExtEnv) (st : ExtState) (name : String) (cfg : ExtConfig) :
    ExtLoadRes :=
  match cfg.globalName with
  | some g =>
    match alookup g st.win with
    | some v => .ok (some v) st
    | none => loadFromUrl env st name cfg
  | none => loadFromUrl env st name cfg

mutual

/-- Shallow embedding of `ExternalHandler.loadExternal`: loaded names
short-circuit to `getLibraryExports`; pending names return the in-flight
promise; otherwise the name is marked pending, `doLoadExternal` runs, and on
settling the name leaves `pending` (and joins `loadedLibraries` on success). -/
def loadExternalAux (env : ExtEnv) : Nat → ExtState → String → ExtLoadRes
  | 0, _, _ => .fuelOut
  | fuel + 1, st, name =>
    if name ∈ st.loadedLibraries then .ok (getLibraryExports st name) st
    else if name ∈ st.pending then .sharedPending st
    else
      match doLoadExternal env fuel { st with pending := name :: st.pending } name with
      | .ok v st' =>
        .ok v { st' with pending := st'.pending.erase name,
                         loadedLibraries := name :: st'.loadedLibraries }
      | .err e st' => .err e { st' with pending := st'.pending.erase name }
      | other => other

/-- Shallow embedding of `ExternalHandler.doLoadExternal`: unregistered names
fail; dependencies load first; `react`/`react-dom` try the Next.js imports
(falling through to the generic tail when those fail); otherwise the
configured global is consulted, then the URL, then `NoLoadMethod`. -/
def doLoadExternal (env : ExtEnv) : Nat → ExtState → String → ExtLoadRes
  | 0, _, _ => .fuelOut
  | fuel + 1, st, name =>
    match alookup name st.externals with
    | none => .err (.notRegistered name) st
    | some cfg =>
      match loadDepList env fuel st cfg.deps with
      | .err e st' => .err e st'
      | .sharedPending st' => .sharedPending st'
      | .fuelOut => .fuelOut
      | .ok _ st2 =>
        if name = "react" then
          match env.reactImport with
          | some r => .ok (some r) { st2 with win := aset "React" r st2.win }
          | none => loadFromGlobalOrUrl env st2 name cfg
        else if name = "react-dom" then
          match env.reactDomImport with
          | some r => .ok (some r) { st2 with win := aset "ReactDOM" r st2.win }
          | none =>
            match env.reactDomFallback with
            | some r => .ok (some r) { st2 with win := aset "ReactDOM" r st2.win }
            | none => loadFromGlobalOrUrl env st2 name cfg
        else loadFromGlobalOrUrl env st2 name cfg

/-- `Promise.all(config.dependencies.map(dep => this.loadExternal(dep)))`,
sequentialized. -/
def loadDepList (env : ExtEnv) : Nat → ExtState → List String → ExtLoadRes
  | 0, _, _ => .fuelOut
  | _ + 1, st, [] => .ok none st
  | fuel + 1, st, d :: ds =>
    match loadExternalAux env fuel st d with
    | .ok _ st' => loadDepList env fuel st' ds
    | other => other

end

/-- The state of a settled (resolved or rejected) load. -/
def settledState : ExtLoadRes → Option ExtState
  | .ok _ st => some st
  | .err _ st => some st
  | .sharedPending _ => none
  | .fuelOut => none

/-- Settling-invariant of the load: pending is restored and in-flight names
never join `loadedLibraries`. -/
def ExtSettleInv (st st' : ExtState) : Prop :=
  st'.pending = st.pending ∧
  ∀ x, x ∈ st.pending → x ∉ st.loadedLibraries → x ∉ st'.loadedLibraries

theorem extSettleInv_refl (st : ExtState) : ExtSettleInv st st :=
  ⟨rfl, fun _ _ h => h⟩

theorem extSettleInv_trans {s1 s2 s3 : ExtState}
    (h12 : ExtSettleInv s1 s2) (h2l : s2.loadedLibraries = s1.loadedLibraries)
    (h23 : ExtSettleInv s2 s3) : ExtSettleInv s1 s3 := by
  refine ⟨h23.1.trans h12.1, fun x hp hl => ?_⟩
  exact h23.2 x (h12.1 ▸ hp) (h2l ▸ hl)

theorem loadFromUrl_settle {env : ExtEnv} {st : ExtState} {name : String}
    {cfg : ExtConfig} {st' : ExtState}
    (h : settledState (loadFromUrl env st name cfg) = some st') :
    st'.pending = st.pending ∧ st'.loadedLibraries = st.loadedLibraries := by
  unfold loadFromUrl at h
  split at h
  · split at h
    · split at h
      · simp only [settledState, Option.some.injEq] at h
        subst h
        exact ⟨rfl, rfl⟩
      · simp only [settledState, Option.some.injEq] at h
        subst h
        exact ⟨rfl, rfl⟩
    · simp only [settledState, Option.some.injEq] at h
      subst h
      exact ⟨rfl, rfl⟩
  · simp only [settledState, Option.some.injEq] at h
    subst h
    exact ⟨rfl, rfl⟩

theorem loadFromGlobalOrUrl_settle {env : ExtEnv} {st : ExtState} {name : String}
    {cfg : ExtConfig} {st' : ExtState}
    (h : settledState (loadFromGlobalOrUrl env st name cfg) = some st') :
    st'.pending = st.pending ∧ st'.loadedLibraries = st.loadedLibraries := by
  unfold loadFromGlobalOrUrl at h
  split at h
  · split at h
    · simp only [settledState, Option.some.injEq] at h
      subst h
      exact ⟨rfl, rfl⟩
    · exact loadFromUrl_settle h
  · exact loadFromUrl_settle h

theorem ext_settle_props (env : ExtEnv) : ∀ fuel : Nat,
    (∀ st name st', settledState (loadExternalAux env fuel st name) = some st' →
        ExtSettleInv st st') ∧
    (∀ st name st', settledState (doLoadExternal env fuel st name) = some st' →
        ExtSettleInv st st') ∧
    (∀ st ds st', settledState (loadDepList env fuel st ds) = some st' →
        ExtSettleInv st st') := by
  intro fuel
  induction fuel with
  | zero =>
    refine ⟨?_, ?_, ?_⟩ <;> intro st a st' h <;>
      simp [loadExternalAux, doLoadExternal, loadDepList, settledState] at h
  | succ fuel ih =>
    obtain ⟨ihL, ihD, ihDs⟩ := ih
    refine ⟨?_, ?_, ?_⟩
    · intro st name st' h
      rw [loadExternalAux] at h
      by_cases hld : name ∈ st.loadedLibraries
      · simp only [hld, if_pos, settledState, Option.some.injEq] at h
        exact h ▸ extSettleInv_refl st
      · by_cases hpd : name ∈ st.pending
        · simp [hld, hpd, settledState] at h
        · simp only [hld, hpd, if_neg, Bool.false_eq_true, not_false_eq_true,
            if_pos] at h
          cases hd : doLoadExternal env fuel { st with pending := name :: st.pending } name with
          | ok v st2 =>
            rw [hd] at h
            simp only [settledState, Option.some.injEq] at h
            obtain ⟨hp, hl⟩ := ihD _ name st2 (by rw [hd]; rfl)
            subst h
            constructor
            · simp only [hp]
              exact List.erase_cons_head name st.pending
            · intro x hxp hxl
              have hxname : x ≠ name := fun hc => hpd (hc ▸ hxp)
              have hx2 : x ∉ st2.loadedLibraries := hl x (by simp [hxp]) hxl
              simp [hxname, hx2]
          | err e st2 =>
            rw [hd] at h
            simp only [settledState, Option.some.injEq] at h
            obtain ⟨hp, hl⟩ := ihD _ name st2 (by rw [hd]; rfl)
            subst h
            constructor
            · simp only [hp]
              exact List.erase_cons_head name st.pending
            · intro x hxp hxl
              exact hl x (by simp [hxp]) hxl
          | sharedPending st2 =>
            rw [hd] at h
            simp [settledState] at h
          | fuelOut =>
            rw [hd] at h
            simp [settledState] at h
    · intro st name st' h
      rw [doLoadExternal] at h
      split at h
      · simp only [settledState, Option.some.injEq] at h
        exact h ▸ extSettleInv_refl st
      · rename_i cfg hcfg
        split at h
        · rename_i e st2 hds
          simp only [settledState, Option.some.injEq] at h
          exact h ▸ ihDs st cfg.deps st2 (by rw [hds]; rfl)
        · simp [settledState] at h
        · simp [settledState] at h
        · rename_i v st2 hds
          have hinv2 : ExtSettleInv st st2 := ihDs st cfg.deps st2 (by rw [hds]; rfl)
          have step : ∀ nm, settledState (loadFromGlobalOrUrl env st2 nm cfg) = some st' →
              ExtSettleInv st st' := by
            intro nm h3
            obtain ⟨hp3, hl3⟩ := loadFromGlobalOrUrl_settle h3
            exact ⟨hp3.trans hinv2.1, fun x hx hxl => hl3 ▸ hinv2.2 x hx hxl⟩
          have fin : ∀ w : List (String × Nat),
              some { st2 with win := w } = some st' → ExtSettleInv st st' := by
            intro w hw
            injection hw with hw
            exact hw ▸ ⟨hinv2.1, hinv2.2⟩
          by_cases hre : name = "react"
          · subst hre
            rw [if_pos rfl] at h
            split at h
            · exact fin _ h
            · exact step _ h
          · by_cases hrd : name = "react-dom"
            · subst hrd
              rw [if_neg hre, if_pos rfl] at h
              split at h
              · exact fin _ h
              · split at h
                · exact fin _ h
                · exact step _ h
            · rw [if_neg hre, if_neg hrd] at h
              exact step _ h
    · intro st ds st' h
      cases ds with
      | nil =>
        rw [loadDepList] at h
        simp only [settledState, Option.some.injEq] at h
        exact h ▸ extSettleInv_refl st
      | cons d ds =>
        rw [loadDepList] at h
        cases hl : loadExternalAux env fuel st d with
        | ok v st1 =>
          rw [hl] at h
          have h1 : ExtSettleInv st st1 := ihL st d st1 (by rw [hl]; rfl)
          have h2 : ExtSettleInv st1 st' := ihDs st1 ds st' h
          refine ⟨h2.1.trans h1.1, fun x hx hxl => ?_⟩
          exact h2.2 x (h1.1 ▸ hx) (h1.2 x hx hxl)
        | err e st1 =>
          rw [hl] at h
          simp only [settledState, Option.some.injEq] at h
          exact h ▸ ihL st d st1 (by rw [hl]; rfl)
        | sharedPending st1 =>
          rw [hl] at h
          simp [settledState] at h
        | fuelOut =>
          rw [hl] at h
          simp [settledState] at h

/-- Environment for the C10 counterexample: the CDN serves `mylib`
(exports value 7); nothing else loads. -/
def c10env : ExtEnv :=
  ⟨fun u => if u = "https://esm.run/mylib" then some 7 else none, none, none, none⟩

/-- Initial state for the C10 counterexample: `mylib` is registered with a
URL only (no global). -/
def c10st : ExtState :=
  ⟨[("mylib", ⟨none, some "https://esm.run/mylib", []⟩)], [], [], []⟩

/-- State after the first successful load of `mylib`. -/
def c10st1 : ExtState :=
  ⟨[("mylib", ⟨none, some "https://esm.run/mylib", []⟩)], ["mylib"], [], []⟩

/-- C10 counterexample: the handler caches only the loaded *flag*, not the
exports.  For a URL-only record the first `loadExternal` returns the fetched
exports (7) but the second returns `null` (`getLibraryExports` has no global
to read), so later loads do not return the cached exports. -/
theorem c10_counterexample :
    loadExternalAux c10env 3 c10st "mylib" = .ok (some 7) c10st1 ∧
    loadExternalAux c10env 3 c10st1 "mylib" = .ok none c10st1 ∧
    (some 7 : Option Nat) ≠ none :=
  ⟨rfl, rfl, by decide⟩

/-- C10 (amended): the first successful load only marks the name loaded;
every later `load(name)` returns `getLibraryExports(name)` — the current
value of the record's configured host global, and `null` when the record has
no global — rather than a stored exports object.  A settled failing load
restores the pending table exactly and does not mark the name loaded, so a
subsequent load can retry; and loading a registered record with neither a
global nor a url fails with the NoLoadMethod error. -/
theorem c10_amended :
    (∀ (env : ExtEnv) (fuel : Nat) (st : ExtState) (name : String),
        name ∈ st.loadedLibraries →
        loadExternalAux env (fuel + 1) st name = .ok (getLibraryExports st name) st) ∧
    (∀ (st : ExtState) (name : String) (cfg : ExtConfig),
        alookup name st.externals = some cfg → cfg.globalName = none →
        getLibraryExports st name = none) ∧
    (∀ (env : ExtEnv) (fuel : Nat) (st : ExtState) (name : String) (e : ExtErr)
        (st' : ExtState),
        loadExternalAux env fuel st name = .err e st' →
        st'.pending = st.pending ∧
        (name ∉ st.loadedLibraries → name ∉ st'.loadedLibraries)) ∧
    (∀ (env : ExtEnv) (fuel : Nat) (st : ExtState) (name : String) (cfg : ExtConfig),
        name ∉ st.loadedLibraries → name ∉ st.pending →
        alookup name st.externals = some cfg → cfg.deps = [] →
        name ≠ "react" → name ≠ "react-dom" →
        cfg.globalName = none → cfg.url = none →
        loadExternalAux env (fuel + 1 + 1 + 1) st name = .err (.noLoadMethod name) st) := by
  refine ⟨?_, ?_, ?_, ?_⟩
  · intro env fuel st name h
    rw [loadExternalAux, if_pos h]
  · intro st name cfg hcfg hg
    obtain ⟨cg, cu, cd⟩ := cfg
    subst hg
    unfold getLibraryExports
    rw [hcfg]
  · intro env fuel st name e st' h
    match fuel with
    | 0 => simp [loadExternalAux] at h
    | fuel + 1 =>
      rw [loadExternalAux] at h
      by_cases hld : name ∈ st.loadedLibraries
      · rw [if_pos hld] at h
        cases h
      · rw [if_neg hld] at h
        by_cases hpd : name ∈ st.pending
        · rw [if_pos hpd] at h
          cases h
        · rw [if_neg hpd] at h
          cases hd : doLoadExternal env fuel { st with pending := name :: st.pending } name with
          | ok v st2 => rw [hd] at h; cases h
          | sharedPending st2 => rw [hd] at h; cases h
          | fuelOut => rw [hd] at h; cases h
          | err e2 st2 =>
            rw [hd] at h
            injection h with h1 h2
            have hinv : ExtSettleInv { st with pending := name :: st.pending } st2 :=
              (ext_settle_props env fuel).2.1 _ name st2 (by rw [hd]; rfl)
            subst h2
            constructor
            · simp only [hinv.1]
              exact List.erase_cons_head name st.pending
            · intro hnl
              exact hinv.2 name (by simp) hnl
  · intro env fuel st name cfg hld hpd hcfg hdeps hre hrd hg hu
    obtain ⟨cg, cu, cd⟩ := cfg
    subst hdeps
    subst hg
    subst hu
    have hcfg1 : alookup name ({ st with pending := name :: st.pending } : ExtState).externals
        = some (ExtConfig.mk none none []) := hcfg
    simp only [loadExternalAux, if_neg hld, if_neg hpd, doLoadExternal, hcfg1, loadDepList,
      if_neg hre, if_neg hrd, loadFromGlobalOrUrl, loadFromUrl, List.erase_cons_head]

/-- Witness for C10 (amended): the loaded-flag branch, the null
`getLibraryExports`, a failed CDN load restoring pending, and a record with
no load method. -/
theorem c10_amended_witness :
    loadExternalAux c10env 1 c10st1 "mylib"
        = .ok (getLibraryExports c10st1 "mylib") c10st1 ∧
    getLibraryExports c10st1 "mylib" = none ∧
    (c10st.pending = c10st.pending ∧
      ("mylib" ∉ c10st.loadedLibraries → "mylib" ∉ c10st.loadedLibraries)) ∧
    loadExternalAux (ExtEnv.mk (fun _ => none) none none none) 3
        (ExtState.mk [("nolib", ⟨none, none, []⟩)] [] [] []) "nolib"
      = .err (.noLoadMethod "nolib") (ExtState.mk [("nolib", ⟨none, none, []⟩)] [] [] []) :=
  ⟨c10_amended.1 c10env 0 c10st1 "mylib" (by decide),
   c10_amended.2.1 c10st1 "mylib" ⟨none, some "https://esm.run/mylib", []⟩ rfl rfl,
   c10_amended.2.2.1 (ExtEnv.mk (fun _ => none) none none none) 3 c10st "mylib"
     (.urlFailed "mylib" "https://esm.run/mylib") c10st rfl,
   c10_amended.2.2.2 (ExtEnv.mk (fun _ => none) none none none) 0
     (ExtState.mk [("nolib", ⟨none, none, []⟩)] [] [] []) "nolib" ⟨none, none, []⟩
     (by decide) (by decide) rfl rfl (by decide) (by decide) rfl rfl⟩

/-! ## The emitted runtime registry (`getModuleRegistryCode`: `window.require`)

Factories take the list of resolved dependency exports (the emitted factory
reads its dependencies through the synchronous indexed local `require`) and
return the module's exports, or `none` for a throw. -/

/-- JavaScript values exported by modules. -/
inductive JsVal : Type
  | vnull
  | vnat (n : Nat)
  | vstr (s : String)
deriving DecidableEq, Repr

/-- A module factory: resolved dependency exports in, exports out
(`none` models a throw). -/
def EFactory : Type := List JsVal → Option JsVal

/-- State of the emitted runtime registry: `modules`, `moduleCache`,
`loadingModules`, plus a ghost counter of factory invocations. -/
structure ESt where
  modules : List (String × (List String × EFactory))
  moduleCache : List (String × JsVal)
  loadingModules : List String
  evalCount : Nat

/-- Runtime errors of the emitted `require`. -/
inductive EErr : Type
  | circular (id : String)
  | notFound (id : String)
  | factoryThrew (id : String)
deriving DecidableEq, Repr

/-- Result of a big-step `require`: resolved, rejected, or out of fuel. -/
inductive ERes : Type
  | ok (v : JsVal) (st : ESt)
  | err (e : EErr) (st : ESt)
  | fuelOut

/-- Result of resolving a dependency list. -/
inductive ELRes : Type
  | okL (vs : List JsVal) (st : ESt)
  | errL (e : EErr) (st : ESt)
  | fuelOutL

mutual

/-- Shallow embedding of the emitted `window.require`: cached ids return the
cached exports; ids in `loadingModules` throw `CircularDependency`; unknown
ids throw `ModuleNotFound`; otherwise the id is marked loading, the declared
dependencies are resolved, the factory runs once, and on success the exports
are cached and the id leaves the loading set (the `catch` also removes it). -/
def eReq : Nat → ESt → String → ERes
  | 0, _, _ => .fuelOut
  | fuel + 1, st, id =>
    match alookup id st.moduleCache with
    | some v => .ok v st
    | none =>
      if id ∈ st.loadingModules then .err (.circular id) st
      else
        match alookup id st.modules with
        | none => .err (.notFound id) st
        | some (deps, fact) =>
          match eReqList fuel { st with loadingModules := id :: st.loadingModules } deps with
          | .errL e st' =>
            .err e { st' with loadingModules := st'.loadingModules.erase id }
          | .fuelOutL => .fuelOut
          | .okL vs st' =>
            match fact vs with
            | none =>
              .err (.factoryThrew id)
                { st' with loadingModules := st'.loadingModules.erase id,
                           evalCount := st'.evalCount + 1 }
            | some v =>
              .ok v { st' with moduleCache := st'.moduleCache ++ [(id, v)],
                               loadingModules := st'.loadingModules.erase id,
                               evalCount := st'.evalCount + 1 }

/-- `Promise.all(moduleInfo.dependencies.map(depId => window.require(depId)))`,
sequentialized. -/
def eReqList : Nat → ESt → List String → ELRes
  | 0, _, _ => .fuelOutL
  | _ + 1, st, [] => .okL [] st
  | fuel + 1, st, d :: ds =>
    match eReq fuel st d with
    | .ok v st' =>
      match eReqList fuel st' ds with
      | .okL vs st'' => .okL (v :: vs) st''
      | other => other
    | .err e st' => .errL e st'
    | .fuelOut => .fuelOutL

end

/-- The synchronous segment of the emitted `window.require` up to its first
`await`: for a defined, uncached, not-yet-loading id this adds the id to
`loadingModules` and suspends; this is the state a concurrent second call
observes. -/
def eReqEnter (st : ESt) (id : String) : ESt :=
  match alookup id st.moduleCache with
  | some _ => st
  | none =>
    if id ∈ st.loadingModules then st
    else
      match alookup id st.modules with
      | none => st
      | some _ => { st with loadingModules := id :: st.loadingModules }

/-- The state of a settled (resolved or rejected) require. -/
def eSettled : ERes → Option ESt
  | .ok _ st => some st
  | .err _ st => some st
  | .fuelOut => none

/-- The state of a settled dependency-list resolution. -/
def elSettled : ELRes → Option ESt
  | .okL _ st => some st
  | .errL _ st => some st
  | .fuelOutL => none

/-- Ids that are loading and uncached stay loading and uncached across any
require that settles: nothing caches an id while it sits in
`loadingModules`. -/
theorem eReq_keeps_loading : ∀ fuel : Nat,
    (∀ st id st', eSettled (eReq fuel st id) = some st' →
        ∀ x, x ∈ st.loadingModules → alookup x st.moduleCache = none →
          x ∈ st'.loadingModules ∧ alookup x st'.moduleCache = none) ∧
    (∀ st ds st', elSettled (eReqList fuel st ds) = some st' →
        ∀ x, x ∈ st.loadingModules → alookup x st.moduleCache = none →
          x ∈ st'.loadingModules ∧ alookup x st'.moduleCache = none) := by
  intro fuel
  induction fuel with
  | zero =>
    constructor <;> intro st a st' h <;> simp [eReq, eReqList, eSettled, elSettled] at h
  | succ fuel ih =>
    obtain ⟨ihR, ihL⟩ := ih
    constructor
    · intro st id st' h x hx hxc
      rw [eReq] at h
      split at h
      · simp only [eSettled, Option.some.injEq] at h
        exact h ▸ ⟨hx, hxc⟩
      · rename_i hc
        split at h
        · simp only [eSettled, Option.some.injEq] at h
          exact h ▸ ⟨hx, hxc⟩
        · rename_i hld
          split at h
          · simp only [eSettled, Option.some.injEq] at h
            exact h ▸ ⟨hx, hxc⟩
          · rename_i deps fact hm
            have hxid : x ≠ id := fun hcon => hld (hcon ▸ hx)
            split at h
            · rename_i e st2 hl
              simp only [eSettled, Option.some.injEq] at h
              obtain ⟨hx2, hc2⟩ := ihL { st with loadingModules := id :: st.loadingModules } deps st2 (by rw [hl]; rfl) x (by simp [hx]) hxc
              subst h
              exact ⟨List.mem_erase_of_ne hxid |>.mpr hx2, hc2⟩
            · simp [eSettled] at h
            · rename_i vs st2 hl
              obtain ⟨hx2, hc2⟩ := ihL { st with loadingModules := id :: st.loadingModules } deps st2 (by rw [hl]; rfl) x (by simp [hx]) hxc
              split at h
              · simp only [eSettled, Option.some.injEq] at h
                subst h
                exact ⟨List.mem_erase_of_ne hxid |>.mpr hx2, hc2⟩
              · rename_i v hf
                simp only [eSettled, Option.some.injEq] at h
                subst h
                refine ⟨List.mem_erase_of_ne hxid |>.mpr hx2, ?_⟩
                rw [alookup_append_of_none _ hc2]
                simp [alookup, hxid.symm]
    · intro st ds st' h x hx hxc
      cases ds with
      | nil =>
        rw [eReqList] at h
        simp only [elSettled, Option.some.injEq] at h
        exact h ▸ ⟨hx, hxc⟩
      | cons d ds =>
        rw [eReqList] at h
        split at h
        · rename_i v st1 hr
          obtain ⟨hx1, hc1⟩ := ihR st d st1 (by rw [hr]; rfl) x hx hxc
          split at h
          · rename_i vs st2 hrest
            simp only [elSettled, Option.some.injEq] at h
            exact h ▸ ihL st1 ds st2 (by rw [hrest]; rfl) x hx1 hc1
          · rename_i hne
            cases hrest : eReqList fuel st1 ds with
            | okL vs st2 => exact (hne vs st2 hrest).elim
            | errL e st2 =>
              rw [hrest] at h
              simp only [elSettled, Option.some.injEq] at h
              exact h ▸ ihL st1 ds st2 (by rw [hrest]; rfl) x hx1 hc1
            | fuelOutL =>
              rw [hrest] at h
              simp [elSettled] at h
        · rename_i e st1 hr
          simp only [elSettled, Option.some.injEq] at h
          exact h ▸ ihR st d st1 (by rw [hr]; rfl) x hx hxc
        · simp [elSettled] at h

/-- A successful require leaves the id cached with the returned exports. -/
theorem eReq_ok_cached {fuel : Nat} {st : ESt} {id : String} {v : JsVal} {st' : ESt}
    (h : eReq fuel st id = .ok v st') : alookup id st'.moduleCache = some v := by
  match fuel with
  | 0 => simp [eReq] at h
  | fuel + 1 =>
    rw [eReq] at h
    split at h
    · rename_i w hc
      injection h with h1 h2
      subst h2
      exact h1 ▸ hc
    · rename_i hc
      split at h
      · cases h
      · rename_i hld
        split at h
        · cases h
        · rename_i deps fact hm
          split at h
          · cases h
          · cases h
          · rename_i vs st2 hl
            split at h
            · cases h
            · rename_i w hf
              injection h with h1 h2
              obtain ⟨_, hc2⟩ := (eReq_keeps_loading fuel).2 { st with loadingModules := id :: st.loadingModules } deps st2 (by rw [hl]; rfl)
                id (by simp) hc
              subst h2
              rw [alookup_append_of_none _ hc2]
              simp [alookup, h1]

/-- C4 counterexample: in the emitted runtime, concurrent `require` calls for
one id do not share an in-flight promise.  With module `/a.tsx` defined and
unloaded, a first call runs its synchronous segment (`eReqEnter`) and
suspends; the second concurrent call then throws `CircularDependency`
instead of returning the exports, while the first call alone completes and
evaluates the factory once. -/
theorem c4_counterexample :
    (∃ st', eReq 2 (ESt.mk [("/a.tsx", ([], fun _ => some (.vnat 42)))] [] [] 0)
        "/a.tsx" = .ok (.vnat 42) st' ∧ st'.evalCount = 1) ∧
    eReq 2 (eReqEnter (ESt.mk [("/a.tsx", ([], fun _ => some (.vnat 42)))] [] [] 0) "/a.tsx")
        "/a.tsx"
      = .err (.circular "/a.tsx")
          (eReqEnter (ESt.mk [("/a.tsx", ([], fun _ => some (.vnat 42)))] [] [] 0) "/a.tsx") :=
  ⟨⟨_, rfl, rfl⟩, rfl⟩

/-- C4 (amended): in the emitted runtime registry, consecutive `require(id)`
calls within one bundle instance evaluate the factory exactly once and return
the same exports object: after a success, a repeat call hits the cache and
returns the same value with the state unchanged (in particular no further
factory evaluation).  Concurrent calls do not share an in-flight promise:
a `require(id)` issued after another call's synchronous entry segment — while
id is still loading — throws `CircularDependency(id)` instead. -/
theorem c4_amended :
    (∀ (fuel : Nat) (st : ESt) (id : String) (v : JsVal) (st' : ESt),
        eReq fuel st id = .ok v st' →
        ∀ fuel2 : Nat, eReq (fuel2 + 1) st' id = .ok v st') ∧
    (∀ (st : ESt) (id : String) (deps : List String) (fact : EFactory) (fuel : Nat),
        alookup id st.moduleCache = none → id ∉ st.loadingModules →
        alookup id st.modules = some (deps, fact) →
        eReq (fuel + 1) (eReqEnter st id) id = .err (.circular id) (eReqEnter st id)) := by
  constructor
  · intro fuel st id v st' h fuel2
    have hc := eReq_ok_cached h
    rw [eReq, hc]
  · intro st id deps fact fuel hc hld hm
    have henter : eReqEnter st id = { st with loadingModules := id :: st.loadingModules } := by
      unfold eReqEnter
      rw [hc, if_neg hld, hm]
    rw [henter, eReq]
    have hc1 : alookup id
        ({ st with loadingModules := id :: st.loadingModules } : ESt).moduleCache = none := hc
    rw [hc1, if_pos (by simp)]

/-- Witness for C4 (amended) on the one-module registry. -/
theorem c4_amended_witness :
    eReq 1 (ESt.mk [("/a.tsx", ([], fun _ => some (.vnat 42)))] [("/a.tsx", .vnat 42)] [] 1)
        "/a.tsx"
      = .ok (.vnat 42)
          (ESt.mk [("/a.tsx", ([], fun _ => some (.vnat 42)))] [("/a.tsx", .vnat 42)] [] 1) ∧
    eReq 1 (eReqEnter (ESt.mk [("/a.tsx", ([], fun _ => some (.vnat 42)))] [] [] 0) "/a.tsx")
        "/a.tsx"
      = .err (.circular "/a.tsx")
          (eReqEnter (ESt.mk [("/a.tsx", ([], fun _ => some (.vnat 42)))] [] [] 0) "/a.tsx") :=
  ⟨c4_amended.1 2 (ESt.mk [("/a.tsx", ([], fun _ => some (.vnat 42)))] [] [] 0) "/a.tsx"
      (.vnat 42)
      (ESt.mk [("/a.tsx", ([], fun _ => some (.vnat 42)))] [("/a.tsx", .vnat 42)] [] 1)
      rfl 0,
   c4_amended.2 (ESt.mk [("/a.tsx", ([], fun _ => some (.vnat 42)))] [] [] 0) "/a.tsx"
      [] (fun _ => some (.vnat 42)) 0 rfl (by decide) rfl⟩

/-! ## Dependency walker (`WebpackLikeCompiler.compileModuleTree`) -/

/-- A compilation result: the wrapped `define` string and the internal
dependency ids. -/
structure CompResult where
  code : String
  dependencies : List String
deriving DecidableEq, Repr

/-- The synthetic error module emitted when `compileModule` throws, exactly
as in `compileModuleTree`. -/
def errorModuleCode (id : String) : String :=
  "define(\x27" ++ id ++
    "\x27, [], function(require, module, exports) \x7b\n            console.error(\x27Module compilation failed: "
    ++ id ++ "\x27);\n            " ++
    "module.exports = \x7b default: () => null \x7d;" ++ "\n          \x7d);"

/-- The synthetic error module: logging factory, `{ default: () => null }`
export, no dependencies. -/
def errorModule (id : String) : CompResult :=
  ⟨errorModuleCode id, []⟩

/-- Shallow embedding of the BFS loop of `compileModuleTree`.  `units` is the
filesystem-plus-compiler oracle (`compileModule` succeeds on its keys and
throws elsewhere); `isExt` is `externalHandler.isExternal`; the accumulator
is the insertion-ordered `compiledModules` map, which doubles as the visited
set (the code inserts into both in the same iteration, before enqueuing). -/
def bfsAux (units : List (String × CompResult)) (isExt : String → Bool) :
    Nat → List String → List (String × CompResult) → Option (List (String × CompResult))
  | 0, _, _ => none
  | _ + 1, [], acc => some acc
  | fuel + 1, id :: q, acc =>
    if (alookup id acc).isSome || isExt id then bfsAux units isExt fuel q acc
    else
      match alookup id units with
      | some r =>
        bfsAux units isExt fuel
          (q ++ r.dependencies.filter
            (fun d => (alookup d (acc ++ [(id, r)])).isNone && !isExt d))
          (acc ++ [(id, r)])
      | none => bfsAux units isExt fuel q (acc ++ [(id, errorModule id)])

/-- Work still chargeable to unvisited units. -/
def bfsRemaining (units : List (String × CompResult))
    (acc : List (String × CompResult)) : Nat :=
  (units.map (fun u =>
    if (alookup u.1 acc).isNone then u.2.dependencies.length + 1 else 0)).sum

/-- Strictly decreasing measure of the BFS loop. -/
def bfsMeasure (units : List (String × CompResult)) (q : List String)
    (acc : List (String × CompResult)) : Nat :=
  q.length + bfsRemaining units acc

/-- `compileModuleTree`, run with provably sufficient fuel. -/
def compileModuleTree (units : List (String × CompResult)) (isExt : String → Bool)
    (entry : String) : Option (List (String × CompResult)) :=
  bfsAux units isExt (bfsMeasure units [entry] [] + 1) [entry] []

theorem bfsRemaining_append_le (units : List (String × CompResult))
    (acc : List (String × CompResult)) (e : String × CompResult) :
    bfsRemaining units (acc ++ [e]) ≤ bfsRemaining units acc := by
  unfold bfsRemaining
  refine List.sum_le_sum ?_
  intro u _
  by_cases h : (alookup u.1 (acc ++ [e])).isNone
  · have hacc : (alookup u.1 acc).isNone := by
      cases hl : alookup u.1 acc with
      | none => rfl
      | some v => rw [alookup_append_of_some _ hl] at h; cases h
    rw [if_pos h, if_pos hacc]
  · rw [if_neg h]
    exact Nat.zero_le _

theorem bfsRemaining_append_lt {units : List (String × CompResult)}
    {acc : List (String × CompResult)} {id : String} {r : CompResult}
    (hacc : alookup id acc = none) (hu : alookup id units = some r)
    (x : CompResult) :
    bfsRemaining units (acc ++ [(id, x)]) + (r.dependencies.length + 1)
      ≤ bfsRemaining units acc := by
  induction units with
  | nil => simp [alookup] at hu
  | cons u us ih =>
    obtain ⟨a, b⟩ := u
    by_cases haid : a = id
    · subst haid
      simp only [alookup, if_pos, Option.some.injEq] at hu
      subst hu
      unfold bfsRemaining
      simp only [List.map_cons, List.sum_cons]
      have h1 : (alookup a (acc ++ [(a, x)])).isNone = false := by
        rw [alookup_append_of_none _ hacc]
        simp [alookup]
      have h2 : (alookup a acc).isNone = true := by rw [hacc]; rfl
      rw [h1, h2]
      simp only [if_neg, Bool.false_eq_true, not_false_eq_true, if_pos, zero_add]
      have := bfsRemaining_append_le us acc (a, x)
      unfold bfsRemaining at this
      omega
    · simp only [alookup, if_neg haid] at hu
      have := ih hu
      unfold bfsRemaining
      simp only [List.map_cons, List.sum_cons]
      unfold bfsRemaining at this
      have hterm : (if (alookup a (acc ++ [(id, x)])).isNone then b.dependencies.length + 1 else 0)
          = (if (alookup a acc).isNone then b.dependencies.length + 1 else 0) := by
        cases hl : alookup a acc with
        | some v => rw [alookup_append_of_some _ hl]
        | none =>
          rw [alookup_append_of_none _ hl]
          simp [alookup, haid]
          exact fun hc => haid hc.symm
      rw [hterm]
      omega

theorem bfsAux_total (units : List (String × CompResult)) (isExt : String → Bool) :
    ∀ (fuel : Nat) (q : List String) (acc : List (String × CompResult)),
      bfsMeasure units q acc < fuel → (bfsAux units isExt fuel q acc).isSome := by
  intro fuel
  induction fuel with
  | zero => intro q acc h; cases h
  | succ fuel ih =>
    intro q acc h
    cases q with
    | nil => rw [bfsAux]; rfl
    | cons id q =>
      rw [bfsAux]
      by_cases hskip : (alookup id acc).isSome || isExt id
      · rw [if_pos hskip]
        refine ih q acc ?_
        unfold bfsMeasure at *
        simp only [List.length_cons] at h
        omega
      · rw [if_neg hskip]
        cases hu : alookup id units with
        | none =>
          refine ih q (acc ++ [(id, errorModule id)]) ?_
          have := bfsRemaining_append_le units acc (id, errorModule id)
          unfold bfsMeasure at *
          simp only [List.length_cons] at h
          omega
        | some r =>
          refine ih _ (acc ++ [(id, r)]) ?_
          have hlen : (r.dependencies.filter
              (fun d => (alookup d (acc ++ [(id, r)])).isNone && !isExt d)).length
              ≤ r.dependencies.length := List.length_filter_le _ _
          have hisnone : alookup id acc = none := by
            cases hl : alookup id acc with
            | none => rfl
            | some v => rw [hl] at hskip; simp at hskip
          have hdec := bfsRemaining_append_lt hisnone hu r
          unfold bfsMeasure at *
          simp only [List.length_cons, List.length_append] at *
          omega

theorem akeys_append {α : Type} (l1 l2 : List (String × α)) :
    akeys (l1 ++ l2) = akeys l1 ++ akeys l2 := List.map_append _ l1 l2

/-- The accumulator only grows: the result extends it. -/
theorem bfsAux_extends (units : List (String × CompResult)) (isExt : String → Bool) :
    ∀ (fuel : Nat) (q : List String) (acc res : List (String × CompResult)),
      bfsAux units isExt fuel q acc = some res → ∃ t, res = acc ++ t := by
  intro fuel
  induction fuel with
  | zero => intro q acc res h; cases h
  | succ fuel ih =>
    intro q acc res h
    cases q with
    | nil =>
      rw [bfsAux] at h
      injection h with h
      exact ⟨[], by rw [h, List.append_nil]⟩
    | cons id q =>
      rw [bfsAux] at h
      by_cases hskip : (alookup id acc).isSome || isExt id
      · rw [if_pos hskip] at h
        exact ih q acc res h
      · rw [if_neg hskip] at h
        cases hu : alookup id units with
        | some r =>
          rw [hu] at h
          obtain ⟨t, ht⟩ := ih _ _ res h
          exact ⟨(id, r) :: t, by rw [ht, List.append_assoc]; rfl⟩
        | none =>
          rw [hu] at h
          obtain ⟨t, ht⟩ := ih _ _ res h
          exact ⟨(id, errorModule id) :: t, by rw [ht, List.append_assoc]; rfl⟩

/-- Transitive reachability from the entry along internal dependencies of
successfully compiled modules. -/
inductive ModReach (units : List (String × CompResult)) (isExt : String → Bool)
    (entry : String) : String → Prop
  | base : ModReach units isExt entry entry
  | step {a : String} {r : CompResult} {d : String} :
      ModReach units isExt entry a → isExt a = false →
      alookup a units = some r → d ∈ r.dependencies →
      ModReach units isExt entry d

/-- Master invariant of the BFS walk. -/
theorem bfsAux_main (units : List (String × CompResult)) (isExt : String → Bool)
    (entry : String) :
    ∀ (fuel : Nat) (q : List String) (acc res : List (String × CompResult)),
      bfsAux units isExt fuel q acc = some res →
      (∀ x ∈ q, ModReach units isExt entry x) →
      (∀ a ∈ akeys acc, ModReach units isExt entry a ∧ isExt a = false) →
      (akeys acc).Nodup →
      (∀ a rr, (a, rr) ∈ acc →
          (∀ u, alookup a units = some u → rr = u) ∧
          (alookup a units = none → rr = errorModule a)) →
      (∀ a ∈ akeys acc, ∀ u, alookup a units = some u →
          ∀ d ∈ u.dependencies, isExt d = true ∨ d ∈ akeys acc ∨ d ∈ q) →
      (akeys res).Nodup ∧
      (∀ a ∈ akeys res, ModReach units isExt entry a ∧ isExt a = false) ∧
      (∀ a rr, (a, rr) ∈ res →
          (∀ u, alookup a units = some u → rr = u) ∧
          (alookup a units = none → rr = errorModule a)) ∧
      (∀ a ∈ akeys res, ∀ u, alookup a units = some u →
          ∀ d ∈ u.dependencies, isExt d = true ∨ d ∈ akeys res) ∧
      (∀ x ∈ q, isExt x = false → x ∈ akeys res) := by
  intro fuel
  induction fuel with
  | zero => intro q acc res h; cases h
  | succ fuel ih =>
    intro q acc res h hq hacc hnodup hentries hclosure
    cases q with
    | nil =>
      rw [bfsAux] at h
      injection h with h
      subst h
      refine ⟨hnodup, hacc, hentries, ?_, by simp⟩
      intro a ha u hu d hd
      rcases hclosure a ha u hu d hd with hc | hc | hc
      · exact Or.inl hc
      · exact Or.inr hc
      · cases hc
    | cons id q =>
      rw [bfsAux] at h
      by_cases hskip : (alookup id acc).isSome || isExt id
      · rw [if_pos hskip] at h
        have hidloc : isExt id = true ∨ id ∈ akeys acc := by
          rcases Bool.or_eq_true_iff.mp hskip with hs | hs
          · right
            cases hl : alookup id acc with
            | none => rw [hl] at hs; cases hs
            | some v => exact mem_akeys_of_alookup_eq_some hl
          · exact Or.inl hs
        have hcl' : ∀ a ∈ akeys acc, ∀ u, alookup a units = some u →
            ∀ d ∈ u.dependencies, isExt d = true ∨ d ∈ akeys acc ∨ d ∈ q := by
          intro a ha u hu d hd
          rcases hclosure a ha u hu d hd with hc | hc | hc
          · exact Or.inl hc
          · exact Or.inr (Or.inl hc)
          · rcases List.mem_cons.mp hc with hc | hc
            · subst hc
              rcases hidloc with hi | hi
              · exact Or.inl hi
              · exact Or.inr (Or.inl hi)
            · exact Or.inr (Or.inr hc)
        obtain ⟨hn, hr, he, hc, hm⟩ :=
          ih q acc res h (fun x hx => hq x (List.mem_cons_of_mem _ hx)) hacc hnodup
            hentries hcl'
        refine ⟨hn, hr, he, hc, ?_⟩
        intro x hx hxe
        rcases List.mem_cons.mp hx with hx | hx
        · subst hx
          rcases hidloc with hi | hi
          · rw [hi] at hxe; cases hxe
          · obtain ⟨t, ht⟩ := bfsAux_extends units isExt fuel q acc res h
            rw [ht, akeys_append]
            exact List.mem_append_left _ hi
        · exact hm x hx hxe
      · rw [if_neg hskip] at h
        have hnone : alookup id acc = none := by
          cases hl : alookup id acc with
          | none => rfl
          | some v => rw [hl] at hskip; simp at hskip
        have hext : isExt id = false := by
          cases hl : isExt id with
          | false => rfl
          | true => rw [hl] at hskip; simp at hskip
        have hidnot : id ∉ akeys acc := alookup_eq_none_iff.mp hnone
        have hridq : ModReach units isExt entry id := hq id (List.mem_cons_self id q)
        cases hu : alookup id units with
        | some r =>
          rw [hu] at h
          have hkeys' : akeys (acc ++ [(id, r)]) = akeys acc ++ [id] := by
            rw [akeys_append]; rfl
          have hq' : ∀ x ∈ q ++ r.dependencies.filter
              (fun d => (alookup d (acc ++ [(id, r)])).isNone && !isExt d),
              ModReach units isExt entry x := by
            intro x hx
            rcases List.mem_append.mp hx with hx | hx
            · exact hq x (List.mem_cons_of_mem _ hx)
            · obtain ⟨hxd, _⟩ := List.mem_filter.mp hx
              exact ModReach.step hridq hext hu hxd
          have hacc' : ∀ a ∈ akeys (acc ++ [(id, r)]),
              ModReach units isExt entry a ∧ isExt a = false := by
            intro a ha
            rw [hkeys'] at ha
            rcases List.mem_append.mp ha with ha | ha
            · exact hacc a ha
            · have : a = id := by simpa using ha
              exact this ▸ ⟨hridq, hext⟩
          have hnd' : (akeys (acc ++ [(id, r)])).Nodup := by
            rw [hkeys']
            exact List.Nodup.append hnodup (List.nodup_singleton id)
              (by intro x hx hy; simp at hy; exact hidnot (hy ▸ hx))
          have hent' : ∀ a rr, (a, rr) ∈ acc ++ [(id, r)] →
              (∀ u, alookup a units = some u → rr = u) ∧
              (alookup a units = none → rr = errorModule a) := by
            intro a rr harr
            rcases List.mem_append.mp harr with harr | harr
            · exact hentries a rr harr
            · have : a = id ∧ rr = r := by simpa using harr
              obtain ⟨rfl, rfl⟩ := this
              constructor
              · intro u hu2
                rw [hu] at hu2
                exact Option.some.inj hu2
              · intro hcon
                rw [hu] at hcon
                cases hcon
          have hcl' : ∀ a ∈ akeys (acc ++ [(id, r)]), ∀ u, alookup a units = some u →
              ∀ d ∈ u.dependencies, isExt d = true ∨ d ∈ akeys (acc ++ [(id, r)]) ∨
                d ∈ q ++ r.dependencies.filter
                  (fun d => (alookup d (acc ++ [(id, r)])).isNone && !isExt d) := by
            intro a ha u hu2 d hd
            rw [hkeys'] at ha ⊢
            rcases List.mem_append.mp ha with ha | ha
            · rcases hclosure a ha u hu2 d hd with hcx | hcx | hcx
              · exact Or.inl hcx
              · exact Or.inr (Or.inl (List.mem_append_left _ hcx))
              · rcases List.mem_cons.mp hcx with hcx | hcx
                · subst hcx
                  exact Or.inr (Or.inl (List.mem_append_right _ (by simp)))
                · exact Or.inr (Or.inr (List.mem_append_left _ hcx))
            · have haid : a = id := by simpa using ha
              subst haid
              rw [hu] at hu2
              injection hu2 with hu2
              subst hu2
              cases hde : isExt d with
              | true => exact Or.inl rfl
              | false =>
                cases hdl : alookup d (acc ++ [(a, r)]) with
                | some v =>
                  refine Or.inr (Or.inl ?_)
                  have := mem_akeys_of_alookup_eq_some hdl
                  rw [akeys_append] at this
                  exact this
                | none =>
                  refine Or.inr (Or.inr (List.mem_append_right _ ?_))
                  refine List.mem_filter.mpr ⟨hd, ?_⟩
                  rw [hdl, hde]
                  rfl
          obtain ⟨hn, hr, he, hc, hm⟩ := ih _ _ res h hq' hacc' hnd' hent' hcl'
          refine ⟨hn, hr, he, hc, ?_⟩
          intro x hx hxe
          rcases List.mem_cons.mp hx with hx | hx
          · subst hx
            obtain ⟨t, ht⟩ := bfsAux_extends units isExt fuel _ _ res h
            rw [ht, akeys_append, hkeys']
            exact List.mem_append_left _ (by simp)
          · exact hm x (List.mem_append_left _ hx) hxe
        | none =>
          rw [hu] at h
          have hkeys' : akeys (acc ++ [(id, errorModule id)]) = akeys acc ++ [id] := by
            rw [akeys_append]; rfl
          have hq' : ∀ x ∈ q, ModReach units isExt entry x :=
            fun x hx => hq x (List.mem_cons_of_mem _ hx)
          have hacc' : ∀ a ∈ akeys (acc ++ [(id, errorModule id)]),
              ModReach units isExt entry a ∧ isExt a = false := by
            intro a ha
            rw [hkeys'] at ha
            rcases List.mem_append.mp ha with ha | ha
            · exact hacc a ha
            · have : a = id := by simpa using ha
              exact this ▸ ⟨hridq, hext⟩
          have hnd' : (akeys (acc ++ [(id, errorModule id)])).Nodup := by
            rw [hkeys']
            exact List.Nodup.append hnodup (List.nodup_singleton id)
              (by intro x hx hy; simp at hy; exact hidnot (hy ▸ hx))
          have hent' : ∀ a rr, (a, rr) ∈ acc ++ [(id, errorModule id)] →
              (∀ u, alookup a units = some u → rr = u) ∧
              (alookup a units = none → rr = errorModule a) := by
            intro a rr harr
            rcases List.mem_append.mp harr with harr | harr
            · exact hentries a rr harr
            · have : a = id ∧ rr = errorModule id := by simpa using harr
              obtain ⟨rfl, h2⟩ := this
              constructor
              · intro u hu2
                rw [hu] at hu2
                cases hu2
              · intro _
                exact h2
          have hcl' : ∀ a ∈ akeys (acc ++ [(id, errorModule id)]), ∀ u,
              alookup a units = some u →
              ∀ d ∈ u.dependencies, isExt d = true ∨
                d ∈ akeys (acc ++ [(id, errorModule id)]) ∨ d ∈ q := by
            intro a ha u hu2 d hd
            rw [hkeys'] at ha ⊢
            rcases List.mem_append.mp ha with ha | ha
            · rcases hclosure a ha u hu2 d hd with hcx | hcx | hcx
              · exact Or.inl hcx
              · exact Or.inr (Or.inl (List.mem_append_left _ hcx))
              · rcases List.mem_cons.mp hcx with hcx | hcx
                · subst hcx
                  exact Or.inr (Or.inl (List.mem_append_right _ (by simp)))
                · exact Or.inr (Or.inr hcx)
            · have haid : a = id := by simpa using ha
              subst haid
              rw [hu] at hu2
              cases hu2
          obtain ⟨hn, hr, he, hc, hm⟩ := ih _ _ res h hq' hacc' hnd' hent' hcl'
          refine ⟨hn, hr, he, hc, ?_⟩
          intro x hx hxe
          rcases List.mem_cons.mp hx with hx | hx
          · subst hx
            obtain ⟨t, ht⟩ := bfsAux_extends units isExt fuel _ _ res h
            rw [ht, akeys_append, hkeys']
            exact List.mem_append_left _ (by simp)
          · exact hm x hx hxe

/-- Every internal id reachable from the entry ends up among the compiled
module keys. -/
theorem compileModuleTree_complete {units : List (String × CompResult)}
    {isExt : String → Bool} {entry : String} {res : List (String × CompResult)}
    (h : compileModuleTree units isExt entry = some res) :
    ∀ x, ModReach units isExt entry x → isExt x = false → x ∈ akeys res := by
  have main := bfsAux_main units isExt entry _ [entry] [] res h
    (by
      intro x hx
      rcases List.mem_cons.mp hx with hx | hx
      · exact hx ▸ ModReach.base
      · cases hx)
    (by intro a ha; cases ha)
    (by simp [akeys])
    (by intro a rr hmem; cases hmem)
    (by intro a ha; cases ha)
  obtain ⟨hn, hr, he, hc, hm⟩ := main
  intro x hx
  induction hx with
  | base => intro hxe; exact hm entry (by simp) hxe
  | step hreach hext hu hd ih2 =>
    rename_i a r d
    intro hde
    have ha : a ∈ akeys res := ih2 hext
    rcases hc a ha r hu d hd with hcx | hcx
    · rw [hcx] at hde; cases hde
    · exact hcx

/-- C1: for every finite set of source units, external predicate and
non-external entry point, `build`'s module walk terminates, and its
insertion-ordered module map contains exactly the ids transitively reachable
from the entry over internal dependencies, no external id, each id exactly
once, with the entry module first. -/
theorem c1_theorem :
    ∀ (units : List (String × CompResult)) (isExt : String → Bool) (entry : String),
      isExt entry = false →
      ∃ ms, compileModuleTree units isExt entry = some ms ∧
        (∀ id, id ∈ akeys ms ↔ (ModReach units isExt entry id ∧ isExt id = false)) ∧
        (akeys ms).Nodup ∧
        (∃ r rest, ms = (entry, r) :: rest) := by
  intro units isExt entry hentry
  have htot := bfsAux_total units isExt (bfsMeasure units [entry] [] + 1) [entry] []
    (Nat.lt_succ_self _)
  cases hres : bfsAux units isExt (bfsMeasure units [entry] [] + 1) [entry] [] with
  | none => rw [hres] at htot; cases htot
  | some ms =>
    have hres' : compileModuleTree units isExt entry = some ms := hres
    have main := bfsAux_main units isExt entry _ [entry] [] ms hres
      (by
        intro x hx
        rcases List.mem_cons.mp hx with hx | hx
        · exact hx ▸ ModReach.base
        · cases hx)
      (by intro a ha; cases ha)
      (by simp [akeys])
      (by intro a rr hmem; cases hmem)
      (by intro a ha; cases ha)
    obtain ⟨hn, hr, he, hc, hm⟩ := main
    refine ⟨ms, hres', ?_, hn, ?_⟩
    · intro id
      constructor
      · exact hr id
      · intro ⟨hreach, hext⟩
        exact compileModuleTree_complete hres' id hreach hext
    · rw [bfsAux] at hres
      rw [if_neg (by simp [alookup, hentry])] at hres
      cases hu : alookup entry units with
      | some r =>
        rw [hu] at hres
        obtain ⟨t, ht⟩ := bfsAux_extends units isExt _ _ _ ms hres
        exact ⟨r, t, by simpa using ht⟩
      | none =>
        rw [hu] at hres
        obtain ⟨t, ht⟩ := bfsAux_extends units isExt _ _ _ ms hres
        exact ⟨errorModule entry, t, by simpa using ht⟩

/-- Witness for C1 on a two-module graph with an external dependency. -/
theorem c1_theorem_witness :
    ∃ ms, compileModuleTree
        [("/main.tsx", ⟨"c1", ["/dep.tsx", "react"]⟩), ("/dep.tsx", ⟨"c2", []⟩)]
        (fun s => s == "react") "/main.tsx" = some ms ∧
      (∀ id, id ∈ akeys ms ↔
        (ModReach [("/main.tsx", ⟨"c1", ["/dep.tsx", "react"]⟩), ("/dep.tsx", ⟨"c2", []⟩)]
          (fun s => s == "react") "/main.tsx" id ∧ (fun s => s == "react") id = false)) ∧
      (akeys ms).Nodup ∧
      (∃ r rest, ms = ("/main.tsx", r) :: rest) :=
  c1_theorem [("/main.tsx", ⟨"c1", ["/dep.tsx", "react"]⟩), ("/dep.tsx", ⟨"c2", []⟩)]
    (fun s => s == "react") "/main.tsx" rfl

theorem string_append_assoc (a b c : String) : a ++ b ++ c = a ++ (b ++ c) := by
  apply String.ext
  simp [String.data_append, List.append_assoc]

/-- The synthesized error-module code contains the null default export. -/
theorem errorModuleCode_decomp (id : String) :
    ∃ s t, errorModuleCode id
      = s ++ "module.exports = \x7b default: () => null \x7d;" ++ t := by
  refine ⟨"define(\x27" ++ id ++
    "\x27, [], function(require, module, exports) \x7b\n            console.error(\x27Module compilation failed: "
    ++ id ++ "\x27);\n            ", "\n          \x7d);", ?_⟩
  unfold errorModuleCode
  simp only [string_append_assoc]

/-- C2 counterexample: a read failure of the entry is NOT surfaced to the
build caller.  With an empty filesystem, compiling from `/main.tsx` completes
and synthesizes an error module for the entry instead of throwing. -/
theorem c2_counterexample :
    compileModuleTree [] (fun _ => false) "/main.tsx"
      = some [("/main.tsx", errorModule "/main.tsx")] := by
  rfl

/-- C2 (amended): during build, every module whose compilation fails — the
entry included — is replaced by a synthesized error module with no
dependencies whose factory logs the failure and exports
`{ default: () => null }`, and the walk always completes: a compile or read
failure is never surfaced to the build caller, not even for the entry (only
initialization failures propagate out of `build`). -/
theorem c2_amended :
    ∀ (units : List (String × CompResult)) (isExt : String → Bool) (entry : String),
      isExt entry = false →
      ∃ ms, compileModuleTree units isExt entry = some ms ∧
        ∀ id r, (id, r) ∈ ms → alookup id units = none →
          r = errorModule id ∧ r.dependencies = [] ∧
          ∃ s t, r.code = s ++ "module.exports = \x7b default: () => null \x7d;" ++ t := by
  intro units isExt entry hentry
  have htot := bfsAux_total units isExt (bfsMeasure units [entry] [] + 1) [entry] []
    (Nat.lt_succ_self _)
  cases hres : bfsAux units isExt (bfsMeasure units [entry] [] + 1) [entry] [] with
  | none => rw [hres] at htot; cases htot
  | some ms =>
    have hres' : compileModuleTree units isExt entry = some ms := hres
    have main := bfsAux_main units isExt entry _ [entry] [] ms hres
      (by
        intro x hx
        rcases List.mem_cons.mp hx with hx | hx
        · exact hx ▸ ModReach.base
        · cases hx)
      (by intro a ha; cases ha)
      (by simp [akeys])
      (by intro a rr hmem; cases hmem)
      (by intro a ha; cases ha)
    obtain ⟨hn, hr, he, hc, hm⟩ := main
    refine ⟨ms, hres', ?_⟩
    intro id r hmem hnone
    have herr := (he id r hmem).2 hnone
    exact ⟨herr, by rw [herr]; rfl, by rw [herr]; exact errorModuleCode_decomp id⟩

/-- Witness for C2 (amended): build over an empty filesystem. -/
theorem c2_amended_witness :
    ∃ ms, compileModuleTree [] (fun _ => false) "/main.tsx" = some ms ∧
      ∀ id r, (id, r) ∈ ms → alookup id ([] : List (String × CompResult)) = none →
        r = errorModule id ∧ r.dependencies = [] ∧
        ∃ s t, r.code = s ++ "module.exports = \x7b default: () => null \x7d;" ++ t :=
  c2_amended [] (fun _ => false) "/main.tsx" rfl

/-- C6: for every module graph — cyclic graphs and self-imports included —
the build walk completes; and at runtime, in the emitted registry, any
`require` issued while the same id is still loading (uncached) fails with
`CircularDependency(id)`; in particular on the two-module cycle
`/a.tsx ↔ /b.tsx` the dependency chain re-enters `/a.tsx` before its factory
returns and `require('/a.tsx')` rejects with `CircularDependency('/a.tsx')`,
and a self-import does the same. -/
theorem c6_theorem :
    (∀ (units : List (String × CompResult)) (isExt : String → Bool) (entry : String),
        (compileModuleTree units isExt entry).isSome) ∧
    (∀ (fuel : Nat) (st : ESt) (id : String),
        alookup id st.moduleCache = none → id ∈ st.loadingModules →
        eReq (fuel + 1) st id = .err (.circular id) st) ∧
    (∀ fA fB : EFactory, ∃ st',
        eReq 5 (ESt.mk [("/a.tsx", (["/b.tsx"], fA)), ("/b.tsx", (["/a.tsx"], fB))] [] [] 0)
          "/a.tsx" = .err (.circular "/a.tsx") st') ∧
    (∀ f : EFactory, ∃ st',
        eReq 5 (ESt.mk [("/s.tsx", (["/s.tsx"], f))] [] [] 0) "/s.tsx"
          = .err (.circular "/s.tsx") st') := by
  refine ⟨?_, ?_, ?_, ?_⟩
  · intro units isExt entry
    exact bfsAux_total units isExt (bfsMeasure units [entry] [] + 1) [entry] []
      (Nat.lt_succ_self _)
  · intro fuel st id hc hl
    rw [eReq, hc, if_pos hl]
  · intro fA fB
    exact ⟨_, rfl⟩
  · intro f
    exact ⟨_, rfl⟩

/-- Witness for C6: a concrete cyclic graph builds, and a concrete loading
state rejects with the circular error. -/
theorem c6_theorem_witness :
    (compileModuleTree [("/a.tsx", ⟨"ca", ["/b.tsx"]⟩), ("/b.tsx", ⟨"cb", ["/a.tsx"]⟩)]
        (fun _ => false) "/a.tsx").isSome ∧
    eReq 1 (ESt.mk [("/x.tsx", ([], fun _ => some (.vnat 0)))] [] ["/x.tsx"] 0) "/x.tsx"
      = .err (.circular "/x.tsx")
          (ESt.mk [("/x.tsx", ([], fun _ => some (.vnat 0)))] [] ["/x.tsx"] 0) :=
  ⟨c6_theorem.1 [("/a.tsx", ⟨"ca", ["/b.tsx"]⟩), ("/b.tsx", ⟨"cb", ["/a.tsx"]⟩)]
      (fun _ => false) "/a.tsx",
   c6_theorem.2.1 0 (ESt.mk [("/x.tsx", ([], fun _ => some (.vnat 0)))] [] ["/x.tsx"] 0)
      "/x.tsx" rfl (by simp)⟩

/-! ## Cache invalidation (`ModuleCompiler.invalidateModule`,
`WebpackLikeCompiler.hotReload`) -/

/-- The `ModuleCompiler` caches: `compilationCache` and `dependencyGraph`. -/
structure CompilerState where
  compilationCache : List (String × CompResult)
  dependencyGraph : List (String × List String)
deriving DecidableEq, Repr

mutual

/-- Shallow embedding of `ModuleCompiler.invalidateModule`: delete the id
from both caches, then scan a snapshot of the (already id-less) dependency
graph and recursively invalidate every module whose dependency set contains
the id. -/
def invalidateAux : Nat → String → CompilerState → Option CompilerState
  | 0, _, _ => none
  | fuel + 1, id, cs =>
    goInv fuel id (adel id cs.dependencyGraph)
      ⟨adel id cs.compilationCache, adel id cs.dependencyGraph⟩
termination_by fuel _ _ => (fuel, 0)

/-- The `for (const [moduleId, deps] of Array.from(entries))` loop of
`invalidateModule`, over the snapshot `es` against the evolving state. -/
def goInv : Nat → String → List (String × List String) → CompilerState →
    Option CompilerState
  | _, _, [], cs => some cs
  | fuel, id, (m, dm) :: rest, cs =>
    if id ∈ dm then
      match invalidateAux fuel m cs with
      | some cs2 => goInv fuel id rest cs2
      | none => none
    else goInv fuel id rest cs
termination_by fuel _ es _ => (fuel, es.length + 1)

end

/-- Fuel sufficient for `invalidateAux` to terminate. -/
def invCost (id : String) (cs : CompilerState) : Nat :=
  2 * cs.dependencyGraph.length + (if id ∈ akeys cs.dependencyGraph then 1 else 2)

theorem adel_length_lt {α : Type} {k : String} {l : List (String × α)}
    (h : k ∈ akeys l) : (adel k l).length < l.length := by
  obtain ⟨e, he, hek⟩ := List.mem_map.mp h
  refine List.length_filter_lt_length_iff_exists.mpr ⟨e, he, ?_⟩
  simp [hek]

theorem adel_eq_of_not_mem {α : Type} {k : String} {l : List (String × α)}
    (h : k ∉ akeys l) : adel k l = l := by
  refine List.filter_eq_self.mpr ?_
  intro e he
  have : e.1 ≠ k := fun hc => h (List.mem_map.mpr ⟨e, he, hc⟩)
  simp [this]

theorem invalidateAux_total :
    ∀ (n : Nat),
      (∀ (id : String) (cs : CompilerState), invCost id cs ≤ n →
        ∃ cs', invalidateAux n id cs = some cs' ∧
          cs'.dependencyGraph.Sublist cs.dependencyGraph) ∧
      (∀ (id : String) (es gsnap : List (String × List String)) (h : CompilerState),
        h.dependencyGraph.Sublist gsnap → (∀ e ∈ es, e ∈ gsnap) →
        2 * gsnap.length + 1 ≤ n →
        ∃ h', goInv n id es h = some h' ∧
          h'.dependencyGraph.Sublist h.dependencyGraph) := by
  intro n
  induction n with
  | zero =>
    constructor
    · intro id cs h
      unfold invCost at h
      by_cases hmem : id ∈ akeys cs.dependencyGraph <;> simp [hmem] at h
    · intro id es gsnap h _ _ hn
      omega
  | succ n ih =>
    have hT : ∀ (id : String) (cs : CompilerState), invCost id cs ≤ n + 1 →
        ∃ cs', invalidateAux (n + 1) id cs = some cs' ∧
          cs'.dependencyGraph.Sublist cs.dependencyGraph := by
      intro id cs hcost
      rw [invalidateAux]
      have hsnap : (adel id cs.dependencyGraph).Sublist (adel id cs.dependencyGraph) :=
        List.Sublist.refl _
      have hes : ∀ e ∈ adel id cs.dependencyGraph, e ∈ adel id cs.dependencyGraph :=
        fun e he => he
      have hn2 : 2 * (adel id cs.dependencyGraph).length + 1 ≤ n := by
        unfold invCost at hcost
        by_cases hmem : id ∈ akeys cs.dependencyGraph
        · have := adel_length_lt (l := cs.dependencyGraph) hmem
          simp [hmem] at hcost
          omega
        · rw [adel_eq_of_not_mem hmem]
          simp [hmem] at hcost
          omega
      obtain ⟨h', hgo, hsub⟩ := ih.2 id (adel id cs.dependencyGraph)
        (adel id cs.dependencyGraph)
        ⟨adel id cs.compilationCache, adel id cs.dependencyGraph⟩
        hsnap hes hn2
      exact ⟨h', hgo, hsub.trans (adel_sublist id cs.dependencyGraph)⟩
    refine ⟨hT, ?_⟩
    intro id es
    induction es with
    | nil =>
      intro gsnap h _ _ _
      refine ⟨h, ?_, List.Sublist.refl _⟩
      rw [goInv]
    | cons e rest ihes =>
      intro gsnap h hsub hes hn
      obtain ⟨m, dm⟩ := e
      rw [goInv]
      by_cases hin : id ∈ dm
      · rw [if_pos hin]
        have hcost : invCost m h ≤ n + 1 := by
          unfold invCost
          by_cases hmem : m ∈ akeys h.dependencyGraph
          · have := hsub.length_le
            simp [hmem]
            omega
          · have hmd : (m, dm) ∈ gsnap := hes (m, dm) (List.mem_cons_self _ _)
            have hnotin : (m, dm) ∉ h.dependencyGraph := by
              intro hc
              exact hmem (List.mem_map.mpr ⟨(m, dm), hc, rfl⟩)
            have hlt : h.dependencyGraph.length < gsnap.length := by
              rcases Nat.lt_or_ge h.dependencyGraph.length gsnap.length with hl | hl
              · exact hl
              · have heq := hsub.eq_of_length (Nat.le_antisymm hsub.length_le hl)
                rw [heq] at hnotin
                exact absurd hmd hnotin
            simp [hmem]
            omega
        obtain ⟨h2, hinv, hsub2⟩ := hT m h hcost
        rw [hinv]
        obtain ⟨h', hgo, hsub3⟩ := ihes gsnap h2 (hsub2.trans hsub)
          (fun e he => hes e (List.mem_cons_of_mem _ he)) hn
        exact ⟨h', hgo, hsub3.trans hsub2⟩
      · rw [if_neg hin]
        exact ihes gsnap h hsub (fun e he => hes e (List.mem_cons_of_mem _ he)) hn

theorem exists_of_mem_akeys {α : Type} {k : String} {l : List (String × α)}
    (h : k ∈ akeys l) : ∃ v, (k, v) ∈ l := by
  obtain ⟨e, he, heq⟩ := List.mem_map.mp h
  exact ⟨e.2, by rw [← heq]; exact he⟩

/-- Post-condition of one `invalidateModule` call. -/
def InvPost (id : String) (cs cs' : CompilerState) : Prop :=
  (∀ e, e ∈ cs'.dependencyGraph → e ∈ cs.dependencyGraph ∧ e.1 ≠ id) ∧
  (∀ k v, alookup k cs'.compilationCache = some v →
    alookup k cs.compilationCache = some v) ∧
  alookup id cs'.compilationCache = none ∧
  (∀ z dz, (z, dz) ∈ cs'.dependencyGraph → id ∉ dz) ∧
  (∀ k, k ∈ akeys cs.dependencyGraph → k ∉ akeys cs'.dependencyGraph →
    (∀ z dz, (z, dz) ∈ cs'.dependencyGraph → k ∉ dz) ∧
    alookup k cs'.compilationCache = none)

/-- Post-condition of the snapshot scan. -/
def GoPost (id : String) (h h' : CompilerState) : Prop :=
  (∀ e, e ∈ h'.dependencyGraph → e ∈ h.dependencyGraph) ∧
  (∀ k v, alookup k h'.compilationCache = some v →
    alookup k h.compilationCache = some v) ∧
  (∀ z dz, (z, dz) ∈ h'.dependencyGraph → id ∉ dz) ∧
  (∀ k, k ∈ akeys h.dependencyGraph → k ∉ akeys h'.dependencyGraph →
    (∀ z dz, (z, dz) ∈ h'.dependencyGraph → k ∉ dz) ∧
    alookup k h'.compilationCache = none)

theorem goPost_nil {fuel : Nat} {id : String} {h h' : CompilerState}
    (hgo : goInv fuel id [] h = some h')
    (hes : ∀ z dz, (z, dz) ∈ h.dependencyGraph → id ∈ dz →
      (z, dz) ∈ ([] : List (String × List String))) :
    GoPost id h h' := by
  rw [goInv] at hgo
  injection hgo with hgo
  subst hgo
  refine ⟨fun e he => he, fun k v hv => hv, ?_, ?_⟩
  · intro z dz hz hiz
    cases hes z dz hz hiz
  · intro k hk hk'
    exact absurd hk hk'

theorem invPost_of_goPost {fuel : Nat} {id : String} {cs cs' : CompilerState}
    (hinv : invalidateAux (fuel + 1) id cs = some cs')
    (hQ : ∀ h h', goInv fuel id (adel id cs.dependencyGraph) h = some h' →
      (∀ z dz, (z, dz) ∈ h.dependencyGraph → id ∈ dz →
        (z, dz) ∈ adel id cs.dependencyGraph) →
      GoPost id h h') :
    InvPost id cs cs' := by
  rw [invalidateAux] at hinv
  obtain ⟨q1, q2, q3, q4⟩ := hQ
    ⟨adel id cs.compilationCache, adel id cs.dependencyGraph⟩ cs' hinv
    (fun z dz hz _ => hz)
  have hcache : ∀ k v, alookup k cs'.compilationCache = some v →
      alookup k cs.compilationCache = some v := by
    intro k v hv
    have hq := q2 k v hv
    by_cases hk : k = id
    · subst hk
      rw [alookup_adel_self] at hq
      cases hq
    · rw [alookup_adel_ne _ hk] at hq
      exact hq
  have hidcache : alookup id cs'.compilationCache = none := by
    cases hv : alookup id cs'.compilationCache with
    | none => rfl
    | some v =>
      have hq := q2 id v hv
      rw [alookup_adel_self] at hq
      cases hq
  refine ⟨fun e he => mem_adel_iff.mp (q1 e he), hcache, hidcache, q3, ?_⟩
  intro k hk hk'
  by_cases hkid : k = id
  · subst hkid
    exact ⟨q3, hidcache⟩
  · have hk1 : k ∈ akeys (adel id cs.dependencyGraph) := by
      obtain ⟨v, hv⟩ := exists_of_mem_akeys hk
      exact List.mem_map.mpr ⟨(k, v), mem_adel_iff.mpr ⟨hv, hkid⟩, rfl⟩
    exact q4 k hk1 hk'

theorem invalidate_master : ∀ fuel : Nat,
    (∀ (id : String) (cs cs' : CompilerState),
      invalidateAux fuel id cs = some cs' → InvPost id cs cs') ∧
    (∀ (id : String) (es : List (String × List String)) (h h' : CompilerState),
      goInv fuel id es h = some h' →
      (∀ z dz, (z, dz) ∈ h.dependencyGraph → id ∈ dz → (z, dz) ∈ es) →
      GoPost id h h') := by
  intro fuel
  induction fuel with
  | zero =>
    constructor
    · intro id cs cs' h
      rw [invalidateAux] at h
      cases h
    · intro id es
      induction es with
      | nil => exact fun h h' hgo hes => goPost_nil hgo hes
      | cons e rest ihes =>
        obtain ⟨m, dm⟩ := e
        intro h h' hgo hes
        rw [goInv] at hgo
        by_cases hin : id ∈ dm
        · rw [if_pos hin] at hgo
          rw [invalidateAux] at hgo
          cases hgo
        · rw [if_neg hin] at hgo
          refine ihes h h' hgo ?_
          intro z dz hz hiz
          rcases List.mem_cons.mp (hes z dz hz hiz) with hc | hc
          · injection hc with hc1 hc2
            subst hc1
            subst hc2
            exact absurd hiz hin
          · exact hc
  | succ fuel ih =>
    have hP : ∀ (id : String) (cs cs' : CompilerState),
        invalidateAux (fuel + 1) id cs = some cs' → InvPost id cs cs' :=
      fun id cs cs' hinv => invPost_of_goPost hinv (fun h h' => ih.2 id _ h h')
    refine ⟨hP, ?_⟩
    intro id es
    induction es with
    | nil => exact fun h h' hgo hes => goPost_nil hgo hes
    | cons e rest ihes =>
      obtain ⟨m, dm⟩ := e
      intro h h' hgo hes
      rw [goInv] at hgo
      by_cases hin : id ∈ dm
      · rw [if_pos hin] at hgo
        split at hgo
        · rename_i h2 hinv
          have hPmh := hP m h h2 hinv
          obtain ⟨p1, p2, p3, p4, p5⟩ := hPmh
          have hesrest : ∀ z dz, (z, dz) ∈ h2.dependencyGraph → id ∈ dz →
              (z, dz) ∈ rest := by
            intro z dz hz hiz
            obtain ⟨hzh, hzm⟩ := p1 (z, dz) hz
            rcases List.mem_cons.mp (hes z dz hzh hiz) with hc | hc
            · injection hc with hc1 hc2
              exact absurd hc1 hzm
            · exact hc
          obtain ⟨r1, r2, r3, r4⟩ := ihes h2 h' hgo hesrest
          refine ⟨fun e he => (p1 e (r1 e he)).1, fun k v hv => p2 k v (r2 k v hv),
            r3, ?_⟩
          intro k hk hk'
          by_cases hk2 : k ∈ akeys h2.dependencyGraph
          · exact r4 k hk2 hk'
          · by_cases hkm : k = m
            · subst hkm
              refine ⟨fun z dz hz => p4 z dz (r1 (z, dz) hz), ?_⟩
              cases hv : alookup k h'.compilationCache with
              | none => rfl
              | some v =>
                have := r2 k v hv
                rw [p3] at this
                cases this
            · obtain ⟨s1, s2⟩ := p5 k hk hk2
              refine ⟨fun z dz hz => s1 z dz (r1 (z, dz) hz), ?_⟩
              cases hv : alookup k h'.compilationCache with
              | none => rfl
              | some v =>
                have := r2 k v hv
                rw [s2] at this
                cases this
        · cases hgo
      · rw [if_neg hin] at hgo
        refine ihes h h' hgo ?_
        intro z dz hz hiz
        rcases List.mem_cons.mp (hes z dz hz hiz) with hc | hc
        · injection hc with hc1 hc2
          subst hc1
          subst hc2
          exact absurd hiz hin
        · exact hc

/-- `z` transitively depends on `tgt` through the dependency graph `g`. -/
inductive RevReach (g : List (String × List String)) (tgt : String) : String → Prop
  | base : RevReach g tgt tgt
  | step {z : String} {dz : List String} {w : String} :
      alookup z g = some dz → w ∈ dz → RevReach g tgt w → RevReach g tgt z

/-- Invalidation drops the target and every transitive reverse dependent from
both caches. -/
theorem invalidate_complete {fuel : Nat} {id : String} {cs cs' : CompilerState}
    (h : invalidateAux fuel id cs = some cs')
    (hnd : (akeys cs.dependencyGraph).Nodup) :
    ∀ z, RevReach cs.dependencyGraph id z → z ∈ akeys cs.dependencyGraph →
      z ∉ akeys cs'.dependencyGraph ∧ alookup z cs'.compilationCache = none := by
  obtain ⟨p1, p2, p3, p4, p5⟩ := (invalidate_master fuel).1 id cs cs' h
  intro z hrev
  induction hrev with
  | base =>
    intro hz
    constructor
    · intro hz'
      obtain ⟨v, hv⟩ := exists_of_mem_akeys hz'
      exact (p1 (id, v) hv).2 rfl
    · exact p3
  | step hz hw hrev ih =>
    rename_i z dz w
    intro hzk
    have hznot : z ∉ akeys cs'.dependencyGraph := by
      intro hz'
      obtain ⟨dz', hdz'⟩ := exists_of_mem_akeys hz'
      have hmem : (z, dz') ∈ cs.dependencyGraph := (p1 (z, dz') hdz').1
      have hdzeq : dz' = dz := by
        have h1 := alookup_of_mem_of_nodup hmem hnd
        rw [hz] at h1
        exact (Option.some.inj h1).symm
      subst hdzeq
      by_cases hwid : w = id
      · subst hwid
        exact p4 z dz' hdz' hw
      · have hwkey : w ∈ akeys cs.dependencyGraph := by
          cases hrev with
          | base => exact absurd rfl hwid
          | step hz2 hw2 hrev2 => exact mem_akeys_of_alookup_eq_some hz2
        have hwnot : w ∉ akeys cs'.dependencyGraph := (ih hwkey).1
        exact (p5 w hwkey hwnot).1 z dz' hdz' hw
    exact ⟨hznot, (p5 z hzk hznot).2⟩

/-- `WebpackLikeCompiler` build-cache state paired with the compiler caches;
build results stand for their reference tags as in `buildStep`. -/
structure WLCState where
  buildCache : List (String × Nat)
  comp : CompilerState
deriving DecidableEq, Repr

/-- `ModuleCompiler.compileModule` over the oracle `units`: memoized; on a
miss it reads and compiles (succeeding exactly on the oracle's keys) and
records the result in both caches. -/
def compileModuleModel (units : List (String × CompResult)) (cs : CompilerState)
    (id : String) : Option (CompResult × CompilerState) :=
  match alookup id cs.compilationCache with
  | some r => some (r, cs)
  | none =>
    match alookup id units with
    | some r =>
      some (r, ⟨aset id r cs.compilationCache, aset id r.dependencies cs.dependencyGraph⟩)
    | none => none

/-- Shallow embedding of `WebpackLikeCompiler.hotReload`: invalidate the
module (transitively), recompile it, then evaluate the new `define` string —
`executeModuleCode` only `eval`s into the runtime registry and touches no
cache.  Nothing on this path reads or writes `buildCache`. -/
def hotReloadModel (units : List (String × CompResult)) (fuel : Nat)
    (st : WLCState) (id : String) : Option WLCState :=
  match invalidateAux fuel id st.comp with
  | none => none
  | some cs1 =>
    match compileModuleModel units cs1 id with
    | none => none
    | some (_, cs2) => some ⟨st.buildCache, cs2⟩

/-- Shallow embedding of `WebpackLikeCompiler.clearCache`. -/
def clearCacheModel (_st : WLCState) : WLCState := ⟨[], ⟨[], []⟩⟩

/-- C8 counterexample: the invalidation performed by `hotReload` does NOT
drop the cached build results.  Hot-reloading `/util.ts` over a state with a
cached build leaves `buildCache` intact and non-empty. -/
theorem c8_counterexample :
    ∃ st', hotReloadModel [("/util.ts", ⟨"cu", []⟩)] (3 + 1)
        (WLCState.mk [("key", 0)]
          ⟨[("/util.ts", ⟨"cu", []⟩)], [("/util.ts", [])]⟩) "/util.ts"
      = some st' ∧ st'.buildCache = [("key", 0)] ∧
        [("key", 0)] ≠ ([] : List (String × Nat)) := by
  refine ⟨WLCState.mk [("key", 0)] ⟨[("/util.ts", ⟨"cu", []⟩)], [("/util.ts", [])]⟩, ?_, rfl,
    by decide⟩
  simp [hotReloadModel, invalidateAux, goInv, compileModuleModel, adel, alookup, aset]

/-- C8 (amended): `invalidateModule(id)` drops `id`'s compilation-cache and
dependency-graph entries and, recursively, those of every module whose
dependency set transitively contains `id`, and it terminates on every graph;
but build results are dropped only by `clearCache()`: the invalidation
performed by `hotReload` leaves all cached build results in place. -/
theorem c8_amended :
    (∀ (fuel : Nat) (id : String) (cs cs' : CompilerState),
        invalidateAux fuel id cs = some cs' →
        (akeys cs.dependencyGraph).Nodup →
        alookup id cs'.compilationCache = none ∧
        id ∉ akeys cs'.dependencyGraph ∧
        (∀ z, RevReach cs.dependencyGraph id z → z ∈ akeys cs.dependencyGraph →
          z ∉ akeys cs'.dependencyGraph ∧ alookup z cs'.compilationCache = none)) ∧
    (∀ (id : String) (cs : CompilerState),
        ∃ cs', invalidateAux (invCost id cs) id cs = some cs') ∧
    (∀ (units : List (String × CompResult)) (fuel : Nat) (st st' : WLCState)
        (id : String), hotReloadModel units fuel st id = some st' →
        st'.buildCache = st.buildCache) ∧
    (∀ st : WLCState, (clearCacheModel st).buildCache = []) := by
  refine ⟨?_, ?_, ?_, fun _ => rfl⟩
  · intro fuel id cs cs' h hnd
    obtain ⟨p1, _, p3, _, _⟩ := (invalidate_master fuel).1 id cs cs' h
    refine ⟨p3, ?_, invalidate_complete h hnd⟩
    intro hid
    obtain ⟨v, hv⟩ := exists_of_mem_akeys hid
    exact (p1 (id, v) hv).2 rfl
  · intro id cs
    obtain ⟨cs', hcs', _⟩ := (invalidateAux_total (invCost id cs)).1 id cs (Nat.le_refl _)
    exact ⟨cs', hcs'⟩
  · intro units fuel st st' id h
    unfold hotReloadModel at h
    split at h
    · cases h
    · rename_i cs1 hinv
      split at h
      · cases h
      · rename_i p cs2 hcomp
        injection h with h
        rw [← h]

/-- Closed witness for `c8_amended`: applied at a three-module chain
`/c -> /b -> /a` (invalidating `/a` empties both caches), at the cost bound,
at a concrete hot reload that keeps the cached build result, and at a
concrete `clearCache`. -/
theorem c8_amended_witness :
    (alookup "/a" (CompilerState.mk [] []).compilationCache = none ∧
      "/a" ∉ akeys (CompilerState.mk [] []).dependencyGraph ∧
      (∀ z, RevReach (CompilerState.mk
            [("/a", CompResult.mk "ca" []), ("/b", CompResult.mk "cb" ["/a"]),
              ("/c", CompResult.mk "cc" ["/b"])]
            [("/a", []), ("/b", ["/a"]), ("/c", ["/b"])]).dependencyGraph "/a" z →
          z ∈ akeys (CompilerState.mk
            [("/a", CompResult.mk "ca" []), ("/b", CompResult.mk "cb" ["/a"]),
              ("/c", CompResult.mk "cc" ["/b"])]
            [("/a", []), ("/b", ["/a"]), ("/c", ["/b"])]).dependencyGraph →
          z ∉ akeys (CompilerState.mk [] []).dependencyGraph ∧
          alookup z (CompilerState.mk [] []).compilationCache = none)) ∧
    (∃ cs', invalidateAux
        (invCost "/a" (CompilerState.mk
          [("/a", CompResult.mk "ca" []), ("/b", CompResult.mk "cb" ["/a"]),
            ("/c", CompResult.mk "cc" ["/b"])]
          [("/a", []), ("/b", ["/a"]), ("/c", ["/b"])])) "/a"
        (CompilerState.mk
          [("/a", CompResult.mk "ca" []), ("/b", CompResult.mk "cb" ["/a"]),
            ("/c", CompResult.mk "cc" ["/b"])]
          [("/a", []), ("/b", ["/a"]), ("/c", ["/b"])]) = some cs') ∧
    (WLCState.mk [("key", 0)]
        (CompilerState.mk [("/util.ts", CompResult.mk "cu" [])]
          [("/util.ts", [])])).buildCache
      = (WLCState.mk [("key", 0)]
        (CompilerState.mk [("/util.ts", CompResult.mk "cu" [])]
          [("/util.ts", [])])).buildCache ∧
    (clearCacheModel (WLCState.mk [("key", 0)]
        (CompilerState.mk [] []))).buildCache = [] := by
  refine ⟨c8_amended.1 7 "/a"
      (CompilerState.mk
        [("/a", CompResult.mk "ca" []), ("/b", CompResult.mk "cb" ["/a"]),
          ("/c", CompResult.mk "cc" ["/b"])]
        [("/a", []), ("/b", ["/a"]), ("/c", ["/b"])])
      (CompilerState.mk [] []) ?_ (by decide),
    c8_amended.2.1 "/a" _,
    c8_amended.2.2.1 [("/util.ts", CompResult.mk "cu" [])] (3 + 1)
      (WLCState.mk [("key", 0)]
        (CompilerState.mk [("/util.ts", CompResult.mk "cu" [])] [("/util.ts", [])]))
      (WLCState.mk [("key", 0)]
        (CompilerState.mk [("/util.ts", CompResult.mk "cu" [])] [("/util.ts", [])]))
      "/util.ts" ?_,
    c8_amended.2.2.2 _⟩
  · simp [invalidateAux, goInv, adel, alookup]
  · simp [hotReloadModel, invalidateAux, goInv, compileModuleModel, adel, alookup, aset]
